/-
Verification of the FinePointRehab progress/state engine.

This file gives a shallow embedding, in Lean 4, of the core of the
FinePointRehab client-side progress tracker:

* `js/utils/date.js`    — canonical-day strings, day differences, day addition;
* `js/progress.js`      — streak update, import, reset (and the enhanced
                          variant of the same module shipped in the repository,
                          embedded as the `ProgressV2` namespace);
* `js/gamification.js`  — points/level ledger;
* `js/exercises.js`     — adaptive-difficulty unlock engine;
* `js/achievements.js`  — achievement condition evaluator;
* the JSON-serialising localStorage wrapper (`js/achievement-notification.js`,
  matching the `js/utils.js` wrapper exercised by `tests/jest/utils.test.js`).

JavaScript values that flow through storage are modelled by the inductive
type `JVal` below; JS numbers are modelled as integers plus the non-finite
values NaN / +Infinity / -Infinity (general floating point is out of scope).
-/

import Mathlib

/-! ## JavaScript values

`JVal` models the JSON-like values the app stores: null, booleans, numbers,
strings, arrays and objects.  Strings are modelled as `List Char`.  The
mutual spine (`JArr`, `JObj`) keeps structural recursion simple. -/

inductive JNum where
  | fin (n : Int)
  | nan
  | inf
  | ninf
deriving DecidableEq, Repr

mutual

inductive JVal where
  | jnull
  | jbool (b : Bool)
  | jnum (x : JNum)
  | jstr (s : List Char)
  | jarr (a : JArr)
  | jobj (o : JObj)
deriving DecidableEq, Repr

inductive JArr where
  | anil
  | acons (v : JVal) (t : JArr)
deriving DecidableEq, Repr

inductive JObj where
  | onil
  | ocons (k : List Char) (v : JVal) (t : JObj)
deriving DecidableEq, Repr

end

open JVal JNum

/-- JS truthiness of a stored value (`!v` in the source negates this). -/
def jTruthy : JVal → Bool
  | .jnull => false
  | .jbool b => b
  | .jnum (.fin n) => n != 0
  | .jnum .nan => false
  | .jnum .inf => true
  | .jnum .ninf => true
  | .jstr s => s != []
  | .jarr _ => true
  | .jobj _ => true

/-- Field lookup on an object: `obj[k]`, `none` models `undefined`. -/
def JObj.find : JObj → List Char → Option JVal
  | .onil, _ => none
  | .ocons k v t, key => if k = key then some v else t.find key

/-- `k in obj` (the JS `in` operator as used by `importData`). -/
def JObj.hasField (o : JObj) (k : List Char) : Bool :=
  (o.find k).isSome

/-! ## Calendar arithmetic (proleptic Gregorian, UTC)

`js/utils/date.js` works with epoch milliseconds; every quantity it
manipulates is a whole multiple of 86 400 000 ms, so we model time as a count
of days from the Unix epoch 1970-01-01 (day 0).  `daysFromCivil` and
`civilFromDays` are the two conversions the JS `Date` built-ins perform
(`Date.UTC`-style parsing and `getUTCFullYear/Month/Date`). -/

def isLeap (y : Int) : Bool :=
  (y % 4 == 0 && y % 100 != 0) || (y % 400 == 0)

/-- Days in month `m` (1–12) of a year with leap flag `leap`. -/
def daysInMonth (leap : Bool) (m : Nat) : Int :=
  match m with
  | 1 => 31 | 2 => if leap then 29 else 28 | 3 => 31 | 4 => 30 | 5 => 31
  | 6 => 30 | 7 => 31 | 8 => 31 | 9 => 30 | 10 => 31 | 11 => 30 | 12 => 31
  | _ => 0

/-- Days from Jan 1 to the first day of month `m` (so `monthStart leap 1 = 0`);
`monthStart leap 13` is the length of the year. -/
def monthStart (leap : Bool) (m : Nat) : Int :=
  match m with
  | 1 => 0 | 2 => 31 | 3 => if leap then 60 else 59
  | 4 => if leap then 91 else 90 | 5 => if leap then 121 else 120
  | 6 => if leap then 152 else 151 | 7 => if leap then 182 else 181
  | 8 => if leap then 213 else 212 | 9 => if leap then 244 else 243
  | 10 => if leap then 274 else 273 | 11 => if leap then 305 else 304
  | 12 => if leap then 335 else 334 | 13 => if leap then 366 else 365
  | _ => 0

/-- Days from 0001-01-01 (day 0) to Jan 1 of year `y`, for any integer `y`
(`/` on `Int` with a positive literal is floor division, matching the
calendar formulas). -/
def daysBeforeYear (y : Int) : Int :=
  365 * (y - 1) + (y - 1) / 4 - (y - 1) / 100 + (y - 1) / 400

/-- Days from 1970-01-01 to 0001-01-01. -/
def epochShift : Int := 719162

/-- Epoch-day number of the civil date `(y, m, d)`. -/
def daysFromCivil (y : Int) (m d : Nat) : Int :=
  daysBeforeYear y + monthStart (isLeap y) m + ((d : Int) - 1) - epochShift

/-- Days before the first day of year-of-era `k` (0 ≤ k ≤ 400) within a
400-year Gregorian era. -/
def dbY (k : Nat) : Int :=
  365 * (k : Int) + (k : Int) / 4 - (k : Int) / 100 + (k : Int) / 400

/-- Largest `j ≤ k` with `f j ≤ x`, assuming `f 0 ≤ x` (descending search). -/
def searchDown (f : Nat → Int) (x : Int) : Nat → Nat
  | 0 => 0
  | k + 1 => if f (k + 1) ≤ x then k + 1 else searchDown f x k

/-- Civil date `(y, m, d)` of epoch-day `z` (the computation
`getUTCFullYear/getUTCMonth/getUTCDate` performs). -/
def civilFromDays (z : Int) : Int × Nat × Nat :=
  let w := z + epochShift
  let era := w / 146097
  let doe := w % 146097
  let yoe := searchDown dbY doe 399
  let y := era * 400 + (yoe : Int) + 1
  let doy := doe - dbY yoe
  let leap := isLeap y
  let m := searchDown (fun j => monthStart leap (j + 1)) doy 11 + 1
  let d := doy - monthStart leap m + 1
  (y, m, d.toNat)

theorem searchDown_le (f : Nat → Int) (x : Int) (k : Nat) :
    searchDown f x k ≤ k := by
  induction k with
  | zero => simp [searchDown]
  | succ k ih =>
    simp only [searchDown]
    split
    · exact le_refl _
    · exact le_trans ih (Nat.le_succ k)

theorem searchDown_spec (f : Nat → Int) (x : Int) (k : Nat) (h0 : f 0 ≤ x) :
    f (searchDown f x k) ≤ x ∧
      (searchDown f x k = k ∨ x < f (searchDown f x k + 1)) := by
  induction k with
  | zero => simpa [searchDown] using h0
  | succ k ih =>
    simp only [searchDown]
    split
    · exact ⟨by assumption, Or.inl rfl⟩
    · rcases ih with ⟨h1, h2⟩
      refine ⟨h1, ?_⟩
      rcases h2 with h2 | h2
      · right; rw [h2]; omega
      · exact Or.inr h2

theorem dbY_400 : dbY 400 = 146097 := by decide

theorem test_cfd : civilFromDays 0 = (1970, 1, 1) := by decide

theorem isLeap_iff (y : Int) :
    isLeap y = true ↔ (y % 4 = 0 ∧ y % 100 ≠ 0) ∨ y % 400 = 0 := by
  simp [isLeap, Bool.or_eq_true, Bool.and_eq_true, beq_iff_eq, bne_iff_ne]

theorem isLeap_mod_400 (era : Int) (n : Int) :
    isLeap (era * 400 + n) = isLeap n := by
  have h4 : (era * 400 + n) % 4 = n % 4 := by omega
  have h100 : (era * 400 + n) % 100 = n % 100 := by omega
  have h400 : (era * 400 + n) % 400 = n % 400 := by omega
  simp [isLeap, h4, h100, h400]

theorem daysBeforeYear_era (era : Int) (k : Nat) :
    daysBeforeYear (era * 400 + (k : Int) + 1) = era * 146097 + dbY k := by
  unfold daysBeforeYear dbY
  have h4 : (era * 400 + (k : Int) + 1 - 1) / 4 = era * 100 + (k : Int) / 4 := by
    omega
  have h100 : (era * 400 + (k : Int) + 1 - 1) / 100 = era * 4 + (k : Int) / 100 := by
    omega
  have h400 : (era * 400 + (k : Int) + 1 - 1) / 400 = era + (k : Int) / 400 := by
    omega
  rw [h4, h100, h400]; ring_nf

theorem dbY_succ (k : Nat) :
    dbY (k + 1) = dbY k + (if isLeap ((k : Int) + 1) then 366 else 365) := by
  have hleap := isLeap_iff ((k : Int) + 1)
  unfold dbY
  push_cast
  split
  · rename_i h
    rw [hleap] at h
    omega
  · rename_i h
    rw [hleap] at h
    push_neg at h
    omega

theorem monthStart_succ (leap : Bool) (m : Nat) (h1 : 1 ≤ m) (h12 : m ≤ 12) :
    monthStart leap (m + 1) = monthStart leap m + daysInMonth leap m := by
  interval_cases m <;> cases leap <;> decide

/-- The calendar round trip: `civilFromDays` produces a valid civil date and
`daysFromCivil` maps it back to the epoch-day it came from. -/
theorem daysFromCivil_civilFromDays (z : Int) :
    1 ≤ (civilFromDays z).2.1 ∧ (civilFromDays z).2.1 ≤ 12 ∧
    1 ≤ (civilFromDays z).2.2 ∧
    ((civilFromDays z).2.2 : Int) ≤
      daysInMonth (isLeap (civilFromDays z).1) (civilFromDays z).2.1 ∧
    daysFromCivil (civilFromDays z).1 (civilFromDays z).2.1
      (civilFromDays z).2.2 = z := by
  simp only [civilFromDays]
  set w := z + epochShift with hw
  set era := w / 146097 with hera
  set doe := w % 146097 with hdoe
  have hdoe0 : 0 ≤ doe := Int.emod_nonneg w (by norm_num)
  have hdoelt : doe < 146097 := Int.emod_lt_of_pos w (by norm_num)
  have hwsplit : w = era * 146097 + doe := by rw [hera, hdoe]; omega
  -- year-of-era search
  set yoe := searchDown dbY doe 399 with hyoe
  have hy0 : dbY 0 ≤ doe := by simpa [dbY] using hdoe0
  have hspec := searchDown_spec dbY doe 399 hy0
  have hle := searchDown_le dbY doe 399
  rw [← hyoe] at hspec hle
  have hylow : dbY yoe ≤ doe := hspec.1
  have hyhigh : doe < dbY (yoe + 1) := by
    rcases hspec.2 with h | h
    · have h400 : dbY (399 + 1) = 146097 := by decide
      rw [h, h400]; exact hdoelt
    · exact h
  set y := era * 400 + (yoe : Int) + 1 with hy
  set doy := doe - dbY yoe with hdoy
  have hdoy0 : 0 ≤ doy := by omega
  set leap := isLeap y with hleap
  have hleapy : leap = isLeap ((yoe : Int) + 1) := by
    rw [hleap, hy]
    have h := isLeap_mod_400 era ((yoe : Int) + 1)
    rw [← h]; ring_nf
  have hdoylt : doy < monthStart leap 13 := by
    have hs := dbY_succ yoe
    rw [← hleapy] at hs
    cases hl : leap <;> rw [hl] at hs <;> simp at hs <;> simp only [monthStart] <;>
      norm_num <;> omega
  -- month search
  set ms := searchDown (fun j => monthStart leap (j + 1)) doy 11 with hms
  have hm0 : (fun j => monthStart leap (j + 1)) 0 ≤ doy := by
    simpa [monthStart] using hdoy0
  have hmspec := searchDown_spec (fun j => monthStart leap (j + 1)) doy 11 hm0
  have hmle := searchDown_le (fun j => monthStart leap (j + 1)) doy 11
  rw [← hms] at hmspec hmle
  simp only at hmspec
  set m := ms + 1 with hm
  have hm1 : 1 ≤ m := by omega
  have hm12 : m ≤ 12 := by omega
  have hmlow : monthStart leap m ≤ doy := hmspec.1
  have hmhigh : doy < monthStart leap (m + 1) := by
    rcases hmspec.2 with h | h
    · have h12 : m = 12 := by omega
      rw [h12]; exact hdoylt
    · rw [hm]; exact h
  set d := doy - monthStart leap m + 1 with hd
  have hdim := monthStart_succ leap m hm1 hm12
  have hd1 : 1 ≤ d := by omega
  have hdle : d ≤ daysInMonth leap m := by omega
  have hdnat : ((d.toNat : Int)) = d := Int.toNat_of_nonneg (by omega)
  refine ⟨hm1, hm12, by omega, ?_, ?_⟩
  · rw [hdnat]; exact hdle
  · show daysFromCivil y m d.toNat = z
    have hdby : daysBeforeYear y = era * 146097 + dbY yoe := by
      rw [hy]; exact daysBeforeYear_era era yoe
    have key : era * 146097 + dbY yoe + monthStart leap m + (d - 1) - epochShift
        = z := by
      rw [hw] at hwsplit; omega
    unfold daysFromCivil
    rw [← hleap, hdnat, hdby]
    omega

/-! ## Decimal digits and strings

`toYMD` renders dates with JS template interpolation (`${y}-${m2}-${d2}`,
month/day padded to two digits); parsing follows the strict
`YYYY-MM-DDT00:00:00.000Z` form fed to `new Date(...)` by `dayDiff`/`addDays`,
which ECMAScript only accepts for four-digit years and real calendar dates. -/

def digitChar (n : Nat) : Char := Char.ofNat (48 + n)

def charDigit (c : Char) : Option Nat :=
  if 48 ≤ c.toNat ∧ c.toNat ≤ 57 then some (c.toNat - 48) else none

/-- Decimal digits of `n`, most significant first, computed with explicit
fuel (the fuel `n + 1` always suffices). -/
def natDigitsF : Nat → Nat → List Char
  | 0, _ => []
  | f + 1, n => if n < 10 then [digitChar n]
                else natDigitsF f (n / 10) ++ [digitChar (n % 10)]

def natDigits (n : Nat) : List Char := natDigitsF (n + 1) n

theorem natDigitsF_congr (f : Nat) : ∀ f' n, n < f → n < f' →
    natDigitsF f n = natDigitsF f' n := by
  induction f with
  | zero => intro f' n h _; omega
  | succ f ih =>
    intro f' n h h'
    cases f' with
    | zero => omega
    | succ f' =>
      simp only [natDigitsF]
      split
      · rfl
      · rename_i hn
        rw [ih f' (n / 10) (by omega) (by omega)]

theorem natDigits_lt10 (n : Nat) (h : n < 10) : natDigits n = [digitChar n] := by
  simp [natDigits, natDigitsF, h]

theorem natDigits_ge10 (n : Nat) (h : 10 ≤ n) :
    natDigits n = natDigits (n / 10) ++ [digitChar (n % 10)] := by
  have h1 : natDigits n = natDigitsF n (n / 10) ++ [digitChar (n % 10)] := by
    show natDigitsF (n + 1) n = _
    simp only [natDigitsF]
    rw [if_neg (by omega)]
  rw [h1, natDigitsF_congr n (n / 10 + 1) (n / 10) (by omega) (by omega)]
  rfl

theorem natDigits_two (n : Nat) (h1 : 10 ≤ n) (h2 : n ≤ 99) :
    natDigits n = [digitChar (n / 10), digitChar (n % 10)] := by
  rw [natDigits_ge10 n h1, natDigits_lt10 (n / 10) (by omega)]
  rfl

theorem natDigits_four (n : Nat) (h1 : 1000 ≤ n) (h2 : n ≤ 9999) :
    natDigits n = [digitChar (n / 1000), digitChar (n / 100 % 10),
      digitChar (n / 10 % 10), digitChar (n % 10)] := by
  rw [natDigits_ge10 n (by omega)]
  rw [natDigits_ge10 (n / 10) (by omega)]
  rw [natDigits_two (n / 10 / 10) (by omega) (by omega)]
  have e1 : n / 10 / 10 / 10 = n / 1000 := by omega
  have e2 : n / 10 / 10 % 10 = n / 100 % 10 := by omega
  have e3 : n / 10 % 10 = n / 10 % 10 := rfl
  rw [e1, e2]
  simp

theorem charDigit_digitChar (k : Nat) (h : k < 10) :
    charDigit (digitChar k) = some k := by
  interval_cases k <;> decide

theorem digitChar_charDigit (c : Char) (k : Nat) (h : charDigit c = some k) :
    digitChar k = c := by
  unfold charDigit at h
  split at h
  · rename_i hr
    have hk : k = c.toNat - 48 := by
      simpa using h.symm
    have hv : 48 + k = c.toNat := by omega
    unfold digitChar
    rw [hv]
    have hlt : c.toNat < 1114112 := by
      have := c.valid
      rcases this with h1 | ⟨_, h2⟩ <;> simp [Char.toNat] <;> omega
    exact Char.ofNat_toNat c
  · exact absurd h (by simp)

theorem charDigit_lt10 (c : Char) (k : Nat) (h : charDigit c = some k) : k < 10 := by
  unfold charDigit at h
  split at h
  · rename_i hr
    have : k = c.toNat - 48 := by simpa using h.symm
    omega
  · exact absurd h (by simp)

def parse2 (a b : Char) : Option Nat := do
  let x ← charDigit a
  let y ← charDigit b
  pure (10 * x + y)

def parse4 (a b c d : Char) : Option Nat := do
  let x ← charDigit a
  let y ← charDigit b
  let z ← charDigit c
  let w ← charDigit d
  pure (1000 * x + 100 * y + 10 * z + w)

/-- Parse a `YYYY-MM-DD` character list the way
`new Date(ymd + "T00:00:00.000Z")` does: exactly four year digits, two month
digits, two day digits, and the date must exist in the proleptic Gregorian
calendar (otherwise the JS `Date` is invalid and the caller's
`assertValidDate` throws). -/
def parseYMDlist : List Char → Option (Nat × Nat × Nat)
  | [y1, y2, y3, y4, s1, m1, m2, s2, d1, d2] =>
    if s1 = '-' ∧ s2 = '-' then
      match parse4 y1 y2 y3 y4, parse2 m1 m2, parse2 d1 d2 with
      | some y, some m, some d =>
        if 1 ≤ m ∧ m ≤ 12 ∧ 1 ≤ d ∧ (d : Int) ≤ daysInMonth (isLeap y) m then
          some (y, m, d)
        else none
      | _, _, _ => none
    else none
  | _ => none

def parseYMD (s : String) : Option (Nat × Nat × Nat) :=
  parseYMDlist s.data

/-- `String(n).padStart(2, "0")` for `n ≤ 99`. -/
def pad2 (n : Nat) : List Char :=
  if n < 10 then ['0', digitChar n] else natDigits n

/-- JS template interpolation `${y}` of an integer year. -/
def intDigits (y : Int) : List Char :=
  if y < 0 then '-' :: natDigits (-y).toNat else natDigits y.toNat

/-- `toYMD`'s output format: `${y}-${pad2 m}-${pad2 d}`. -/
def fmtYMD (y : Int) (m d : Nat) : String :=
  ⟨intDigits y ++ '-' :: (pad2 m ++ '-' :: pad2 d)⟩

theorem pad2_digits (n : Nat) (h : n ≤ 99) :
    pad2 n = [digitChar (n / 10), digitChar (n % 10)] := by
  unfold pad2
  split
  · rename_i hlt
    have h10 : n / 10 = 0 := by omega
    have hmod : n % 10 = n := by omega
    have h0 : digitChar 0 = '0' := by decide
    rw [h10, hmod, h0]
  · rename_i hge
    exact natDigits_two n (by omega) h

theorem parse2_pad2 (n : Nat) (h : n ≤ 99) :
    parse2 (pad2 n)[0]! (pad2 n)[1]! = some n := by
  rw [pad2_digits n h]
  simp only [List.getElem!_cons_zero, List.getElem!_cons_succ]
  unfold parse2
  rw [charDigit_digitChar (n / 10) (by omega), charDigit_digitChar (n % 10) (by omega)]
  simp
  omega

theorem daysInMonth_le31 (leap : Bool) (m : Nat) : daysInMonth leap m ≤ 31 := by
  unfold daysInMonth
  cases leap <;> split <;> norm_num

theorem daysInMonth_pos (leap : Bool) (m : Nat) (h1 : 1 ≤ m) (h2 : m ≤ 12) :
    1 ≤ daysInMonth leap m := by
  interval_cases m <;> cases leap <;> decide

theorem parseYMD_fmtYMD (y m d : Nat) (hy1 : 1000 ≤ y) (hy2 : y ≤ 9999)
    (hm1 : 1 ≤ m) (hm2 : m ≤ 12) (hd1 : 1 ≤ d)
    (hd2 : (d : Int) ≤ daysInMonth (isLeap y) m) :
    parseYMD (fmtYMD (y : Int) m d) = some (y, m, d) := by
  have hdmle := daysInMonth_le31 (isLeap (y : Int)) m
  have hys : intDigits (y : Int) = natDigits y := by
    unfold intDigits
    rw [if_neg (by omega)]
    simp
  have hy4 := natDigits_four y hy1 hy2
  have hmp := pad2_digits m (by omega)
  have hdp := pad2_digits d (by omega)
  have hdata : (fmtYMD (y : Int) m d).data =
      [digitChar (y / 1000), digitChar (y / 100 % 10), digitChar (y / 10 % 10),
       digitChar (y % 10), '-', digitChar (m / 10), digitChar (m % 10), '-',
       digitChar (d / 10), digitChar (d % 10)] := by
    show (intDigits (y : Int) ++ '-' :: (pad2 m ++ '-' :: pad2 d)) = _
    rw [hys, hy4, hmp, hdp]
    rfl
  unfold parseYMD
  rw [hdata]
  simp only [parseYMDlist]
  rw [if_pos (by exact ⟨trivial, trivial⟩)]
  unfold parse4 parse2
  rw [charDigit_digitChar (y / 1000) (by omega),
      charDigit_digitChar (y / 100 % 10) (by omega),
      charDigit_digitChar (y / 10 % 10) (by omega),
      charDigit_digitChar (y % 10) (by omega),
      charDigit_digitChar (m / 10) (by omega),
      charDigit_digitChar (m % 10) (by omega),
      charDigit_digitChar (d / 10) (by omega),
      charDigit_digitChar (d % 10) (by omega)]
  simp only [Option.bind_eq_bind, Option.some_bind, pure]
  have hyv : 1000 * (y / 1000) + 100 * (y / 100 % 10) + 10 * (y / 10 % 10) + y % 10 = y := by
    omega
  have hmv : 10 * (m / 10) + m % 10 = m := by omega
  have hdv : 10 * (d / 10) + d % 10 = d := by omega
  rw [hyv, hmv, hdv]
  rw [if_pos ⟨hm1, hm2, hd1, hd2⟩]

theorem parse2_inv (a b : Char) (n : Nat) (h : parse2 a b = some n) :
    ∃ ka kb, charDigit a = some ka ∧ charDigit b = some kb ∧
      n = 10 * ka + kb := by
  unfold parse2 at h
  cases ha : charDigit a with
  | none => rw [ha] at h; simp at h
  | some ka =>
    cases hb : charDigit b with
    | none => rw [ha, hb] at h; simp at h
    | some kb =>
      rw [ha, hb] at h
      simp at h
      exact ⟨ka, kb, rfl, rfl, h.symm⟩

theorem parse4_inv (a b c d : Char) (n : Nat) (h : parse4 a b c d = some n) :
    ∃ ka kb kc kd, charDigit a = some ka ∧ charDigit b = some kb ∧
      charDigit c = some kc ∧ charDigit d = some kd ∧
      n = 1000 * ka + 100 * kb + 10 * kc + kd := by
  unfold parse4 at h
  cases ha : charDigit a with
  | none => rw [ha] at h; simp at h
  | some ka =>
    cases hb : charDigit b with
    | none => rw [ha, hb] at h; simp at h
    | some kb =>
      cases hc : charDigit c with
      | none => rw [ha, hb, hc] at h; simp at h
      | some kc =>
        cases hd : charDigit d with
        | none => rw [ha, hb, hc, hd] at h; simp at h
        | some kd =>
          rw [ha, hb, hc, hd] at h
          simp at h
          exact ⟨ka, kb, kc, kd, rfl, rfl, rfl, rfl, h.symm⟩

theorem fmtYMD_parseYMD (s : String) (y m d : Nat)
    (h : parseYMD s = some (y, m, d)) (hy : 1000 ≤ y) :
    fmtYMD (y : Int) m d = s := by
  unfold parseYMD parseYMDlist at h
  split at h
  case _ y1 y2 y3 y4 s1 m1 m2 s2 d1 d2 heq =>
    split at h
    case isFalse => exact Option.noConfusion h
    case isTrue hcond =>
      rcases hcond with ⟨hs1, hs2⟩
      subst hs1; subst hs2
      split at h
      case _ yv mv dv hp4 hp2m hp2d =>
        split at h
        case isFalse => exact Option.noConfusion h
        case isTrue hrange =>
          have hinj : yv = y ∧ mv = m ∧ dv = d := by
            simpa [Prod.ext_iff] using h
          rcases hinj with ⟨rfl, rfl, rfl⟩
          rcases parse4_inv _ _ _ _ _ hp4 with ⟨ka, kb, kc, kd, ha, hb, hc, hd, hyv⟩
          rcases parse2_inv _ _ _ hp2m with ⟨ma, mb, hma, hmb, hmv⟩
          rcases parse2_inv _ _ _ hp2d with ⟨da, db, hda, hdb, hdv⟩
          have hka := charDigit_lt10 _ _ ha
          have hkb := charDigit_lt10 _ _ hb
          have hkc := charDigit_lt10 _ _ hc
          have hkd := charDigit_lt10 _ _ hd
          have hmalt := charDigit_lt10 _ _ hma
          have hmblt := charDigit_lt10 _ _ hmb
          have hdalt := charDigit_lt10 _ _ hda
          have hdblt := charDigit_lt10 _ _ hdb
          have hy9999 : yv ≤ 9999 := by omega
          have hys : intDigits (yv : Int) = natDigits yv := by
            unfold intDigits
            rw [if_neg (by omega)]
            simp
          have hy4 := natDigits_four yv hy hy9999
          have e1 : yv / 1000 = ka := by omega
          have e2 : yv / 100 % 10 = kb := by omega
          have e3 : yv / 10 % 10 = kc := by omega
          have e4 : yv % 10 = kd := by omega
          have hmp := pad2_digits mv (by omega)
          have em1 : mv / 10 = ma := by omega
          have em2 : mv % 10 = mb := by omega
          have hdp := pad2_digits dv (by omega)
          have ed1 : dv / 10 = da := by omega
          have ed2 : dv % 10 = db := by omega
          have hdata : (fmtYMD (yv : Int) mv dv).data = s.data := by
            show (intDigits (yv : Int) ++ '-' :: (pad2 mv ++ '-' :: pad2 dv)) = s.data
            rw [hys, hy4, hmp, hdp, e1, e2, e3, e4, em1, em2, ed1, ed2]
            rw [digitChar_charDigit _ _ ha, digitChar_charDigit _ _ hb,
                digitChar_charDigit _ _ hc, digitChar_charDigit _ _ hd,
                digitChar_charDigit _ _ hma, digitChar_charDigit _ _ hmb,
                digitChar_charDigit _ _ hda, digitChar_charDigit _ _ hdb]
            rw [heq]
            rfl
          exact String.ext hdata
      case _ => exact Option.noConfusion h
  case _ => exact Option.noConfusion h

theorem monthStart_bounds (leap : Bool) (m : Nat) :
    0 ≤ monthStart leap m ∧ monthStart leap m ≤ 366 := by
  unfold monthStart
  cases leap <;> split <;> norm_num

/-! ## The `js/utils/date.js` functions

`toYMD`, `dayDiff`, `addDays` and the weekday helper, modelled on canonical
`YYYY-MM-DD` inputs.  A `none` result models a thrown `Invalid ...` error
(`assertValidDate`).  `dayDiff`'s `Math.round` is exact because both times
are whole multiples of `MS_PER_DAY`, so it is elided.  `addDays` yields an
invalid `Date` (hence a throw from `toYMD`) only past the ±100 000 000-day
ECMAScript time range, which the model checks explicitly. -/

def MAX_DATE_DAYS : Int := 100000000

namespace DateUtils

/-- `toYMD` restricted to canonical day-string inputs (`new Date(s)` for a
`YYYY-MM-DD` string, then UTC-formatted back). -/
def toYMD (s : String) : Option String :=
  match parseYMD s with
  | some (y, m, d) => some (fmtYMD (y : Int) m d)
  | none => none

/-- `dayDiff(ymdA, ymdB)` from `js/utils/date.js`. -/
def dayDiff (ymdA ymdB : String) : Option Int :=
  match parseYMD ymdA, parseYMD ymdB with
  | some (ya, ma, da), some (yb, mb, db) =>
      some (daysFromCivil (yb : Int) mb db - daysFromCivil (ya : Int) ma da)
  | _, _ => none

/-- `addDays(ymd, days)` from `js/utils/date.js`. -/
def addDays (ymd : String) (days : Int) : Option String :=
  match parseYMD ymd with
  | some (y, m, d) =>
      let e := daysFromCivil (y : Int) m d + days
      if -MAX_DATE_DAYS ≤ e ∧ e ≤ MAX_DATE_DAYS then
        some (fmtYMD (civilFromDays e).1 (civilFromDays e).2.1 (civilFromDays e).2.2)
      else none
  | none => none

/-- `getUTCDay()` of a canonical day (0 = Sunday … 6 = Saturday); also the
body of `dayOfWeekFromYMD` in the enhanced progress module. -/
def dayOfWeekFromYMD (ymd : String) : Option Int :=
  match parseYMD ymd with
  | some (y, m, d) => some ((daysFromCivil (y : Int) m d + 4) % 7)
  | none => none

end DateUtils

/-- A string is a valid canonical day iff `new Date(s + "T00:00:00.000Z")`
yields a valid date. -/
def validYMD (s : String) : Bool := (parseYMD s).isSome

theorem test_epochShift : daysBeforeYear 1970 = epochShift := by decide

theorem test_weekday_model : DateUtils.dayOfWeekFromYMD "2024-01-15" = some 1 := by
  decide

theorem daysBeforeYear_bounds (y : Int) (h1 : 1000 ≤ y) (h2 : y ≤ 9999) :
    364000 ≤ daysBeforeYear y ∧ daysBeforeYear y ≤ 3660000 := by
  unfold daysBeforeYear
  omega

/--
C10 (amended): for every valid canonical day string `d` and every integer
`n` for which the day `n` days away still falls in a four-digit year
(1000–9999), `addDays(d, n)` returns a valid canonical day string and
`dayDiff(d, addDays(d, n)) = n`; and `dayDiff` is antisymmetric on all
valid canonical days.  (The year restriction is forced: outside it the year
is not rendered as four digits, see the counterexample.)
-/
theorem dateAddDays_dayDiff_roundtrip (s : String) (y m d : Nat) (n : Int)
    (hp : parseYMD s = some (y, m, d))
    (hy1 : 1000 ≤ (civilFromDays (daysFromCivil (y : Int) m d + n)).1)
    (hy2 : (civilFromDays (daysFromCivil (y : Int) m d + n)).1 ≤ 9999) :
    (∃ s', DateUtils.addDays s n = some s' ∧ validYMD s' = true ∧
       DateUtils.dayDiff s s' = some n) ∧
    (∀ a b va vb, DateUtils.dayDiff a b = some va →
       DateUtils.dayDiff b a = some vb → va = -vb) := by
  constructor
  · set e := daysFromCivil (y : Int) m d + n with he
    obtain ⟨hm1, hm12, hd1, hdle, hdfc⟩ := daysFromCivil_civilFromDays e
    set yc := (civilFromDays e).1 with hyc
    set mc := (civilFromDays e).2.1 with hmc
    set dc := (civilFromDays e).2.2 with hdc
    have hdc31 : (dc : Int) ≤ 31 := le_trans hdle (daysInMonth_le31 _ _)
    have hby := daysBeforeYear_bounds yc hy1 hy2
    have hms := monthStart_bounds (isLeap yc) mc
    have hrange : -MAX_DATE_DAYS ≤ e ∧ e ≤ MAX_DATE_DAYS := by
      unfold daysFromCivil at hdfc
      unfold epochShift at hdfc
      unfold MAX_DATE_DAYS
      omega
    have haddDays : DateUtils.addDays s n = some (fmtYMD yc mc dc) := by
      unfold DateUtils.addDays
      simp only [hp]
      rw [← he, if_pos hrange]
    set yn := yc.toNat with hyn
    have hcast : (yn : Int) = yc := Int.toNat_of_nonneg (by omega)
    have hparse' : parseYMD (fmtYMD yc mc dc) = some (yn, mc, dc) := by
      rw [← hcast]
      exact parseYMD_fmtYMD yn mc dc (by omega) (by omega) hm1 hm12 hd1
        (by rw [hcast]; exact hdle)
    refine ⟨fmtYMD yc mc dc, haddDays, ?_, ?_⟩
    · rw [validYMD, hparse']
      rfl
    · unfold DateUtils.dayDiff
      simp only [hp, hparse']
      have hdiff : daysFromCivil (yn : Int) mc dc - daysFromCivil (y : Int) m d = n := by
        rw [hcast, hdfc, he]
        ring
      rw [hdiff]
  · intro a b va vb h1 h2
    unfold DateUtils.dayDiff at h1 h2
    cases hpa : parseYMD a with
    | none => rw [hpa] at h1; exact Option.noConfusion h1
    | some pa =>
      cases hpb : parseYMD b with
      | none =>
        rw [hpa, hpb] at h1
        obtain ⟨ya, ma, da⟩ := pa
        exact Option.noConfusion h1
      | some pb =>
        obtain ⟨ya, ma, da⟩ := pa
        obtain ⟨yb, mb, db⟩ := pb
        rw [hpa, hpb] at h1 h2
        simp only [Option.some_inj] at h1 h2
        omega

set_option maxRecDepth 100000 in
/--
C10 (counterexample to the claim as stated): `addDays("1000-01-01", -1)`
returns `"999-12-31"`, whose year is not rendered as four digits, so it is
not a valid canonical `YYYY-MM-DD` string and `dayDiff` on it throws —
refuting "for every integer n, addDays(d, n) returns a valid canonical day
string and dayDiff(d, addDays(d, n)) = n".
-/
theorem dateAddDays_year_underflow : DateUtils.addDays "1000-01-01" (-1)
      = some "999-12-31" ∧ validYMD "999-12-31" = false ∧
    DateUtils.dayDiff "1000-01-01" "999-12-31" = none := by
  constructor
  · decide
  · constructor
    · decide
    · decide

set_option maxRecDepth 100000 in
/-- Witness for `dateAddDays_dayDiff_roundtrip` at `"2024-01-15"`, n = 30. -/
theorem dateAddDays_dayDiff_roundtrip_witness :
    (∃ s', DateUtils.addDays "2024-01-15" 30 = some s' ∧ validYMD s' = true ∧
       DateUtils.dayDiff "2024-01-15" s' = some 30) ∧
    (∀ a b va vb, DateUtils.dayDiff a b = some va →
       DateUtils.dayDiff b a = some vb → va = -vb) :=
  dateAddDays_dayDiff_roundtrip "2024-01-15" 2024 1 15 30 (by decide)
    (by decide) (by decide)

/-! ## Wrapper-level storage view

`js/utils.js`'s `storage` (and the identical wrapper in
`js/achievement-notification.js`) JSON-stringifies every value on `set` and
JSON-parses on `get`, so through the wrapper a module reads back exactly the
structured value it wrote (proved for the raw string layer in the
`StorageJS` section below).  The progress/achievement/exercise modules are
therefore modelled over this wrapper-level view: an association list from
keys to `JVal`s, first binding wins, `set` replaces in place. -/

def storeGet : List (String × JVal) → String → Option JVal
  | [], _ => none
  | (k', v) :: t, k => if k' = k then some v else storeGet t k

def storeSet : List (String × JVal) → String → JVal → List (String × JVal)
  | [], k, v => [(k, v)]
  | (k', v') :: t, k, v =>
      if k' = k then (k, v) :: t else (k', v') :: storeSet t k v

theorem storeGet_set_self (st : List (String × JVal)) (k : String) (v : JVal) :
    storeGet (storeSet st k v) k = some v := by
  induction st with
  | nil => simp [storeGet, storeSet]
  | cons h t ih =>
    obtain ⟨k', v'⟩ := h
    simp only [storeSet]
    split
    · simp [storeGet]
    · rename_i hne
      simp only [storeGet]
      rw [if_neg hne]
      exact ih

theorem storeGet_set_other (st : List (String × JVal)) (k k' : String) (v : JVal)
    (h : k' ≠ k) : storeGet (storeSet st k v) k' = storeGet st k' := by
  induction st with
  | nil =>
    simp only [storeGet, storeSet]
    rw [if_neg (fun hh => h hh.symm)]
  | cons hd t ih =>
    obtain ⟨k'', v''⟩ := hd
    simp only [storeSet]
    split
    · rename_i heq
      subst heq
      simp only [storeGet]
      rw [if_neg (fun hh => h hh.symm), if_neg (fun hh => h hh.symm)]
    · simp only [storeGet]
      split
      · rfl
      · exact ih

/-- `Number(stringValue)`: an optional sign followed by decimal digits
(the only numeric strings this code base writes); anything else is NaN.
The empty string coerces to 0.  Fractional numerals are outside the model
(the app only ever writes `String(<integer>)`). -/
def digitsVal (s : List Char) : Nat :=
  s.foldl (fun acc c => 10 * acc + (c.toNat - 48)) 0

def allDigits (s : List Char) : Bool :=
  s.all fun c => 48 ≤ c.toNat && c.toNat ≤ 57

def strToNumber (s : List Char) : JNum :=
  match s with
  | [] => .fin 0
  | '-' :: rest =>
      if rest ≠ [] ∧ allDigits rest then .fin (-(digitsVal rest : Int)) else .nan
  | _ => if allDigits s then .fin (digitsVal s) else .nan

/-- `Number(v)` for the value shapes this code base stores (arrays/objects
coerce through strings in JS; the app never reads numbers out of them, so
they are modelled as NaN). -/
def jsNumber : JVal → JNum
  | .jnull => .fin 0
  | .jbool b => .fin (if b then 1 else 0)
  | .jnum x => x
  | .jstr s => strToNumber s
  | .jarr _ => .nan
  | .jobj _ => .nan

/-- `storage.getInt(key, fallback)`: read, coerce with `Number`, floor if
finite, else the fallback (`Math.floor` of an integer is itself). -/
def getIntW (st : List (String × JVal)) (k : String) (fallback : Int) : Int :=
  match storeGet st k with
  | none => fallback
  | some .jnull => fallback
  | some v =>
      match jsNumber v with
      | .fin n => n
      | _ => fallback

/-- `String(n)` for an integer. -/
def intToStr (n : Int) : String := ⟨intDigits n⟩

/-! ## `updateStreak` — `js/progress.js` (and the enhanced variant)

State is the wrapper-level store.  A `none` result models a thrown
`InvalidDate` (from `toYMD` or `dayDiff`).  Only string-valued
`lastActiveDate` entries are modelled (the module itself only ever writes
strings there).  The weekday test inlines `getUTCDay` = `(epochDay + 4) mod
7`, exactly `dayOfWeekFromYMD`. -/

namespace Progress

/-- The two writes at the end of `updateStreak`:
`storage.set('streak', String(streak)); storage.set('lastActiveDate', currentYMD)`. -/
def writeStreakState (st : List (String × JVal)) (streak : Int) (ymd : String) :
    List (String × JVal) :=
  storeSet (storeSet st "streak" (.jstr (intToStr streak).data))
    "lastActiveDate" (.jstr ymd.data)

/-- `updateStreak(currentDateLike)` from `js/progress.js` (lines 58–104):
returns the streak value and the updated store. -/
def updateStreak (st : List (String × JVal)) (currentDateLike : String) :
    Option (Int × List (String × JVal)) :=
  match parseYMD currentDateLike with
  | none => none
  | some (yc, mc, dc) =>
    let currentYMD := fmtYMD (yc : Int) mc dc
    let lastYMD := storeGet st "lastActiveDate"
    let streak0 := getIntW st "streak" 0
    if jTruthy (lastYMD.getD .jnull) = false then
      -- first session ever
      some (1, writeStreakState st 1 currentYMD)
    else
      match lastYMD with
      | some (.jstr ls) =>
        match parseYMD (String.mk ls) with
        | none => none  -- dayDiff throws on a corrupt stored day
        | some (yl, ml, dl) =>
          let diff := daysFromCivil (yc : Int) mc dc - daysFromCivil (yl : Int) ml dl
          let streak :=
            if diff = 0 then streak0
            else if diff = 1 then streak0 + 1
            else if 2 ≤ diff ∧ diff ≤ 3 then
              if (daysFromCivil (yc : Int) mc dc + 4) % 7 = 1 then
                if (daysFromCivil (yl : Int) ml dl + 4) % 7 = 5 ∨
                   (daysFromCivil (yl : Int) ml dl + 4) % 7 = 6 ∨
                   (daysFromCivil (yl : Int) ml dl + 4) % 7 = 0 then
                  streak0 + 1
                else 1
              else 1
            else if 3 < diff then 1
            else max 1 streak0  -- dates out of order: keep existing, clamp to 1
          some (streak, writeStreakState st streak currentYMD)
      | _ => none

end Progress

namespace ProgressV2

/-- `updateStreak` from the enhanced progress module
(`src/unnamed/part_003`, lines 108–155): identical except that an
out-of-order call (`diff < 0`) returns early, leaving the store unchanged. -/
def updateStreak (st : List (String × JVal)) (currentDateLike : String) :
    Option (Int × List (String × JVal)) :=
  match parseYMD currentDateLike with
  | none => none
  | some (yc, mc, dc) =>
    let currentYMD := fmtYMD (yc : Int) mc dc
    let lastYMD := storeGet st "lastActiveDate"
    let streak0 := getIntW st "streak" 0
    if jTruthy (lastYMD.getD .jnull) = false then
      some (1, Progress.writeStreakState st 1 currentYMD)
    else
      match lastYMD with
      | some (.jstr ls) =>
        match parseYMD (String.mk ls) with
        | none => none
        | some (yl, ml, dl) =>
          let diff := daysFromCivil (yc : Int) mc dc - daysFromCivil (yl : Int) ml dl
          if diff < 0 then
            -- FIX: ignore out-of-order updates entirely
            some (streak0, st)
          else
            let streak :=
              if diff = 0 then streak0
              else if diff = 1 then streak0 + 1
              else if 2 ≤ diff ∧ diff ≤ 3 then
                if (daysFromCivil (yc : Int) mc dc + 4) % 7 = 1 then
                  if (daysFromCivil (yl : Int) ml dl + 4) % 7 = 5 ∨
                     (daysFromCivil (yl : Int) ml dl + 4) % 7 = 6 ∨
                     (daysFromCivil (yl : Int) ml dl + 4) % 7 = 0 then
                    streak0 + 1
                  else 1
                else 1
              else if 3 < diff then 1
              else max 1 streak0
            some (streak, Progress.writeStreakState st streak currentYMD)
      | _ => none

end ProgressV2

theorem stringMk_data (s : String) : String.mk s.data = s := by
  cases s
  rfl

theorem parseYMD_data_ne_nil (s : String) (x : Nat × Nat × Nat)
    (h : parseYMD s = some x) : s.data ≠ [] := by
  unfold parseYMD parseYMDlist at h
  split at h
  · rename_i heq
    rw [heq]
    simp
  · exact Option.noConfusion h

/-- Store for the out-of-order scenario: lastActiveDay `2024-01-10`,
streak `5` (stored as the module stores them). -/
def outOfOrderStore : List (String × JVal) :=
  [("lastActiveDate", .jstr "2024-01-10".data), ("streak", .jstr "5".data)]

set_option maxRecDepth 100000 in
/--
C1: calling `updateStreak` with `2024-01-08`, two days before the stored
`lastActiveDate = 2024-01-10` (streak 5), must leave `{streak,
lastActiveDay}` unchanged.  The `js/progress.js` implementation instead
falls into its final `else` (`streak = Math.max(1, streak)`) and then
unconditionally stores `lastActiveDate := 2024-01-08`, so the state *is*
changed; the enhanced variant of the same module (`src/unnamed/part_003`)
returns early as the claim requires and leaves the store untouched.
-/
theorem updateStreak_out_of_order_mutates :
    Progress.updateStreak outOfOrderStore "2024-01-08"
      = some (5, [("lastActiveDate", .jstr "2024-01-08".data),
                  ("streak", .jstr "5".data)]) ∧
    Progress.updateStreak outOfOrderStore "2024-01-08"
      ≠ some (5, outOfOrderStore) ∧
    ProgressV2.updateStreak outOfOrderStore "2024-01-08"
      = some (5, outOfOrderStore) := by
  refine ⟨by decide, by decide, by decide⟩

/--
C3: for a stored last-active day `L` with streak `S ≥ 1` and a valid day `D`
with `diff = dayDifference(L, D)`: `diff ≥ 4` resets the streak to 1
regardless of weekday; `diff ∈ {2, 3}` increments to `S + 1` exactly when
`D` is a Monday and `L` fell on the Friday/Saturday/Sunday immediately
preceding it, and resets to 1 otherwise; `diff = 1` increments to `S + 1`
(`js/progress.js`, lines 67–98).
-/
theorem updateStreak_gap_and_amnesty (st : List (String × JVal)) (L D : String)
    (yl ml dl yc mc dc : Nat) (S : Int)
    (hL : storeGet st "lastActiveDate" = some (.jstr L.data))
    (hpl : parseYMD L = some (yl, ml, dl))
    (hpc : parseYMD D = some (yc, mc, dc))
    (hS : getIntW st "streak" 0 = S)
    (hS1 : 1 ≤ S) :
    let diff := daysFromCivil (yc : Int) mc dc - daysFromCivil (yl : Int) ml dl
    let wD := (daysFromCivil (yc : Int) mc dc + 4) % 7
    let wL := (daysFromCivil (yl : Int) ml dl + 4) % 7
    (4 ≤ diff →
      ∃ st', Progress.updateStreak st D = some (1, st') ∧
        storeGet st' "streak" = some (.jstr (intToStr 1).data)) ∧
    ((diff = 2 ∨ diff = 3) →
      ((wD = 1 ∧ (wL = 5 ∨ wL = 6 ∨ wL = 0)) →
        ∃ st', Progress.updateStreak st D = some (S + 1, st') ∧
          storeGet st' "streak" = some (.jstr (intToStr (S + 1)).data)) ∧
      (¬(wD = 1 ∧ (wL = 5 ∨ wL = 6 ∨ wL = 0)) →
        ∃ st', Progress.updateStreak st D = some (1, st') ∧
          storeGet st' "streak" = some (.jstr (intToStr 1).data))) ∧
    (diff = 1 →
      ∃ st', Progress.updateStreak st D = some (S + 1, st') ∧
        storeGet st' "streak" = some (.jstr (intToStr (S + 1)).data)) := by
  intro diff wD wL
  have hLne : L.data ≠ [] := parseYMD_data_ne_nil L _ hpl
  have hmk : String.mk L.data = L := stringMk_data L
  have hkeys : ("lastActiveDate" : String) ≠ "streak" := by decide
  have hread : ∀ v : Int,
      storeGet (Progress.writeStreakState st v (fmtYMD (yc : Int) mc dc)) "streak"
        = some (.jstr (intToStr v).data) := by
    intro v
    unfold Progress.writeStreakState
    rw [storeGet_set_other _ _ _ _ hkeys.symm ]
    exact storeGet_set_self _ _ _
  -- common reduction of updateStreak st D
  have hstep : Progress.updateStreak st D =
      some (let streak :=
              if diff = 0 then S
              else if diff = 1 then S + 1
              else if 2 ≤ diff ∧ diff ≤ 3 then
                if wD = 1 then
                  if wL = 5 ∨ wL = 6 ∨ wL = 0 then S + 1 else 1
                else 1
              else if 3 < diff then 1
              else max 1 S;
            (streak, Progress.writeStreakState st streak (fmtYMD (yc : Int) mc dc))) := by
    unfold Progress.updateStreak
    simp only [hpc, hL, hS, Option.getD]
    have htr : jTruthy (.jstr L.data) = true := by
      simp [jTruthy, hLne]
    rw [htr]
    simp only [Bool.true_eq_false, if_neg (by simp : ¬(True = False))]
    rw [hmk, hpl]
    rfl
  refine ⟨?_, ?_, ?_⟩
  · intro h4
    refine ⟨_, ?_, hread 1⟩
    rw [hstep]
    have e0 : ¬ diff = 0 := by omega
    have e1 : ¬ diff = 1 := by omega
    have e23 : ¬ (2 ≤ diff ∧ diff ≤ 3) := by omega
    have e3 : 3 < diff := by omega
    simp only [if_neg e0, if_neg e1, if_neg e23, if_pos e3]
  · intro h23
    constructor
    · intro hmon
      refine ⟨_, ?_, hread (S + 1)⟩
      rw [hstep]
      have e0 : ¬ diff = 0 := by omega
      have e1 : ¬ diff = 1 := by omega
      have e23 : 2 ≤ diff ∧ diff ≤ 3 := by omega
      simp only [if_neg e0, if_neg e1, if_pos e23, if_pos hmon.1,
        if_pos hmon.2]
    · intro hnot
      refine ⟨_, ?_, hread 1⟩
      rw [hstep]
      have e0 : ¬ diff = 0 := by omega
      have e1 : ¬ diff = 1 := by omega
      have e23 : 2 ≤ diff ∧ diff ≤ 3 := by omega
      simp only [if_neg e0, if_neg e1, if_pos e23]
      by_cases hw : wD = 1
      · have hwl : ¬ (wL = 5 ∨ wL = 6 ∨ wL = 0) := fun hh => hnot ⟨hw, hh⟩
        simp only [if_pos hw, if_neg hwl]
      · simp only [if_neg hw]
  · intro h1
    refine ⟨_, ?_, hread (S + 1)⟩
    rw [hstep]
    have e0 : ¬ diff = 0 := by omega
    simp only [if_neg e0, if_pos h1]

/-- Store for the Monday-amnesty scenario: last active Friday `2024-01-12`,
streak 3. -/
def amnestyStore : List (String × JVal) :=
  [("lastActiveDate", .jstr "2024-01-12".data), ("streak", .jstr "3".data)]

set_option maxRecDepth 100000 in
/-- Witness for `updateStreak_gap_and_amnesty`: Friday `2024-01-12` →
Monday `2024-01-15` with streak 3 increments to 4. -/
theorem updateStreak_gap_and_amnesty_witness :
    ∃ st', Progress.updateStreak amnestyStore "2024-01-15" = some (4, st') ∧
      storeGet st' "streak" = some (.jstr (intToStr 4).data) := by
  have h := (updateStreak_gap_and_amnesty amnestyStore "2024-01-12" "2024-01-15"
      2024 1 12 2024 1 15 3 (by decide) (by decide) (by decide) (by decide)
      (by norm_num)).2.1
  have h' := (h (by decide)).1 (by decide)
  simpa using h'

/-! ## JSON serialisation (the storage wrapper's structured encode/decode)

`storage.set` runs `JSON.stringify` on every value and `storage.get` runs
`JSON.parse` on the raw string (`js/achievement-notification.js`, lines
629–723, matching `js/utils.js`).  `jsonStr`/`parseJVal` model those two
built-ins on the JSON value grammar: compact output, integers for the
numeric values this code base stores, `"`/`\` escaping in strings
(`JSON.stringify`'s further control-character escapes round-trip the same
way and are not modelled).  Non-finite numbers serialise as `null`, exactly
as `JSON.stringify` does. -/

def lbrace : Char := '\x7b'

def rbrace : Char := '\x7d'

def isDigitCh (c : Char) : Bool := 48 ≤ c.toNat && c.toNat ≤ 57

def escChar (c : Char) : List Char :=
  if c = '"' ∨ c = '\\' then ['\\', c] else [c]

def escStr : List Char → List Char
  | [] => []
  | c :: t => escChar c ++ escStr t

mutual

def jsonStr : JVal → List Char
  | .jnull => 'n' :: 'u' :: 'l' :: 'l' :: []
  | .jbool true => 't' :: 'r' :: 'u' :: 'e' :: []
  | .jbool false => 'f' :: 'a' :: 'l' :: 's' :: 'e' :: []
  | .jnum (.fin n) => intDigits n
  | .jnum _ => 'n' :: 'u' :: 'l' :: 'l' :: []
  | .jstr s => '"' :: (escStr s ++ ['"'])
  | .jarr a => '[' :: (jsonArr a ++ [']'])
  | .jobj o => lbrace :: (jsonObj o ++ [rbrace])

def jsonArr : JArr → List Char
  | .anil => []
  | .acons v .anil => jsonStr v
  | .acons v (.acons v' t) => jsonStr v ++ ',' :: jsonArr (.acons v' t)

def jsonObj : JObj → List Char
  | .onil => []
  | .ocons k v .onil => '"' :: (escStr k ++ '"' :: ':' :: jsonStr v)
  | .ocons k v (.ocons k' v' t) =>
      ('"' :: (escStr k ++ '"' :: ':' :: jsonStr v)) ++
        ',' :: jsonObj (.ocons k' v' t)

end

/-- String-body parser: characters up to the closing quote, `\X` ↦ `X`. -/
def parseJStr : List Char → Option (List Char × List Char)
  | [] => none
  | '"' :: rest => some ([], rest)
  | '\\' :: c :: rest => (parseJStr rest).map fun p => (c :: p.1, p.2)
  | c :: rest => (parseJStr rest).map fun p => (c :: p.1, p.2)

/-- Longest digit prefix and the remainder. -/
def takeDigits : List Char → List Char × List Char
  | [] => ([], [])
  | c :: t =>
      if isDigitCh c then
        let p := takeDigits t
        (c :: p.1, p.2)
      else ([], c :: t)

mutual

def parseJVal : Nat → List Char → Option (JVal × List Char)
  | 0, _ => none
  | _ + 1, [] => none
  | f + 1, c :: rest =>
      if c = 'n' then
        match rest with
        | 'u' :: 'l' :: 'l' :: r => some (.jnull, r)
        | _ => none
      else if c = 't' then
        match rest with
        | 'r' :: 'u' :: 'e' :: r => some (.jbool true, r)
        | _ => none
      else if c = 'f' then
        match rest with
        | 'a' :: 'l' :: 's' :: 'e' :: r => some (.jbool false, r)
        | _ => none
      else if c = '"' then
        (parseJStr rest).map fun p => (.jstr p.1, p.2)
      else if c = '[' then
        match rest with
        | ']' :: r => some (.jarr .anil, r)
        | _ => (parseJArr f rest).map fun p => (.jarr p.1, p.2)
      else if c = lbrace then
        match rest with
        | [] => none
        | r1 :: r2 =>
            if r1 = rbrace then some (.jobj .onil, r2)
            else (parseJObj f (r1 :: r2)).map fun p => (.jobj p.1, p.2)
      else if c = '-' then
        match takeDigits rest with
        | ([], _) => none
        | (ds, r) => some (.jnum (.fin (-(digitsVal ds : Int))), r)
      else if isDigitCh c then
        match takeDigits (c :: rest) with
        | (ds, r) => some (.jnum (.fin (digitsVal ds)), r)
      else none

def parseJArr : Nat → List Char → Option (JArr × List Char)
  | 0, _ => none
  | f + 1, cs =>
      match parseJVal f cs with
      | none => none
      | some (v, r) =>
          match r with
          | ',' :: r2 => (parseJArr f r2).map fun p => (.acons v p.1, p.2)
          | ']' :: r2 => some (.acons v .anil, r2)
          | _ => none

def parseJObj : Nat → List Char → Option (JObj × List Char)
  | 0, _ => none
  | f + 1, cs =>
      match cs with
      | '"' :: rest =>
          match parseJStr rest with
          | none => none
          | some (k, r) =>
              match r with
              | ':' :: r2 =>
                  match parseJVal f r2 with
                  | none => none
                  | some (v, r3) =>
                      match r3 with
                      | ',' :: r4 => (parseJObj f r4).map fun p => (.ocons k v p.1, p.2)
                      | c :: r4 => if c = rbrace then some (.ocons k v .onil, r4) else none
                      | [] => none
              | _ => none
      | _ => none

end

mutual

def sizeV : JVal → Nat
  | .jarr a => sizeA a + 1
  | .jobj o => sizeO o + 1
  | _ => 1

def sizeA : JArr → Nat
  | .anil => 0
  | .acons v t => sizeV v + sizeA t + 1

def sizeO : JObj → Nat
  | .onil => 0
  | .ocons _ v t => sizeV v + sizeO t + 1

end

mutual

/-- No NaN / ±Infinity anywhere inside the value (those serialise as
`null` and do not round-trip). -/
def finV : JVal → Bool
  | .jnum (.fin _) => true
  | .jnum _ => false
  | .jarr a => finA a
  | .jobj o => finO o
  | _ => true

def finA : JArr → Bool
  | .anil => true
  | .acons v t => finV v && finA t

def finO : JObj → Bool
  | .onil => true
  | .ocons _ v t => finV v && finO t

end

/-- `JSON.stringify`. -/
def JSONstringify (v : JVal) : String := ⟨jsonStr v⟩

/-- `JSON.parse`: whole-input parse, `none` models a throw. -/
def JSONparse (s : String) : Option JVal :=
  match parseJVal (s.length + 1) s.data with
  | some (v, []) => some v
  | _ => none

def headNotDigit : List Char → Bool
  | [] => true
  | c :: _ => !isDigitCh c

theorem digitChar_toNat (k : Nat) (h : k < 10) : (digitChar k).toNat = 48 + k := by
  interval_cases k <;> decide

theorem natDigits_head (n : Nat) :
    ∃ c t, natDigits n = c :: t ∧ isDigitCh c = true := by
  induction n using Nat.strong_induction_on with
  | _ n ih =>
    by_cases h : n < 10
    · refine ⟨digitChar n, [], natDigits_lt10 n h, ?_⟩
      have := digitChar_toNat n h
      simp [isDigitCh, this]
      omega
    · obtain ⟨c, t, hct, hd⟩ := ih (n / 10) (by omega)
      refine ⟨c, t ++ [digitChar (n % 10)], ?_, hd⟩
      rw [natDigits_ge10 n (by omega), hct]
      rfl

theorem natDigits_all_digits (n : Nat) :
    ∀ c ∈ natDigits n, isDigitCh c = true := by
  induction n using Nat.strong_induction_on with
  | _ n ih =>
    by_cases h : n < 10
    · rw [natDigits_lt10 n h]
      intro c hc
      simp at hc
      subst hc
      have := digitChar_toNat n h
      simp [isDigitCh, this]
      omega
    · rw [natDigits_ge10 n (by omega)]
      intro c hc
      rw [List.mem_append] at hc
      rcases hc with hc | hc
      · exact ih (n / 10) (by omega) c hc
      · simp at hc
        subst hc
        have := digitChar_toNat (n % 10) (by omega)
        simp [isDigitCh, this]
        omega

theorem digitsVal_append_single (l : List Char) (c : Char) :
    digitsVal (l ++ [c]) = 10 * digitsVal l + (c.toNat - 48) := by
  unfold digitsVal
  rw [List.foldl_append]
  rfl

theorem digitsVal_natDigits (n : Nat) : digitsVal (natDigits n) = n := by
  induction n using Nat.strong_induction_on with
  | _ n ih =>
    by_cases h : n < 10
    · rw [natDigits_lt10 n h]
      show digitsVal ([] ++ [digitChar n]) = n
      rw [digitsVal_append_single]
      have := digitChar_toNat n h
      simp [digitsVal, this]
    · rw [natDigits_ge10 n (by omega), digitsVal_append_single,
        ih (n / 10) (by omega)]
      have := digitChar_toNat (n % 10) (by omega)
      rw [this]
      omega

theorem takeDigits_append (ds rest : List Char)
    (hds : ∀ c ∈ ds, isDigitCh c = true) (hrest : headNotDigit rest = true) :
    takeDigits (ds ++ rest) = (ds, rest) := by
  induction ds with
  | nil =>
    simp only [List.nil_append]
    cases rest with
    | nil => rfl
    | cons c t =>
      simp [headNotDigit] at hrest
      simp [takeDigits, hrest]
  | cons c t ih =>
    have hc : isDigitCh c = true := hds c (List.mem_cons_self c t)
    have ih' := ih (fun x hx => hds x (List.mem_cons_of_mem c hx))
    simp only [List.cons_append, takeDigits, hc, if_true, List.append_eq, ih']

theorem parseJStr_escStr (s : List Char) (rest : List Char) :
    parseJStr (escStr s ++ '"' :: rest) = some (s, rest) := by
  induction s with
  | nil => rfl
  | cons c t ih =>
    show parseJStr (escChar c ++ escStr t ++ '"' :: rest) = _
    unfold escChar
    split
    · rename_i hesc
      show parseJStr ('\\' :: c :: (escStr t ++ '"' :: rest)) = _
      rw [parseJStr, ih]
      rfl
    · rename_i hesc
      push_neg at hesc
      show parseJStr (c :: (escStr t ++ '"' :: rest)) = _
      rw [parseJStr.eq_def]
      split
      · rename_i heq
        exact absurd heq (by simp)
      · rename_i heq
        have h1 := (List.cons.inj heq).1
        exact absurd h1 hesc.1
      · rename_i c3 rest3 heq
        exact absurd (List.cons.inj heq).1 hesc.2
      · rename_i c2 rest2 heq
        obtain ⟨hc2, hrest2⟩ := List.cons.inj heq
        subst hc2
        rw [← hrest2, ih]
        rfl

theorem parseJVal_null (f : Nat) (rest : List Char) :
    parseJVal (f + 1) ('n' :: 'u' :: 'l' :: 'l' :: rest) = some (.jnull, rest) := rfl

theorem parseJVal_true (f : Nat) (rest : List Char) :
    parseJVal (f + 1) ('t' :: 'r' :: 'u' :: 'e' :: rest) = some (.jbool true, rest) := rfl

theorem parseJVal_false (f : Nat) (rest : List Char) :
    parseJVal (f + 1) ('f' :: 'a' :: 'l' :: 's' :: 'e' :: rest)
      = some (.jbool false, rest) := rfl

theorem parseJVal_quote (f : Nat) (rest : List Char) :
    parseJVal (f + 1) ('"' :: rest)
      = (parseJStr rest).map
          (fun p : List Char × List Char => (JVal.jstr p.1, p.2)) := rfl

theorem parseJVal_arr_nil (f : Nat) (rest : List Char) :
    parseJVal (f + 1) ('[' :: ']' :: rest) = some (.jarr .anil, rest) := rfl

theorem parseJVal_obj_nil (f : Nat) (rest : List Char) :
    parseJVal (f + 1) (lbrace :: rbrace :: rest) = some (.jobj .onil, rest) := by
  rfl

theorem parseJVal_minus (f : Nat) (rest : List Char) :
    parseJVal (f + 1) ('-' :: rest)
      = (match takeDigits rest with
         | ([], _) => none
         | (ds, r) => some (.jnum (.fin (-(digitsVal ds : Int))), r)) := rfl

set_option maxHeartbeats 1000000 in
theorem parseJVal_arr (f : Nat) (c0 : Char) (L1 : List Char) (h : c0 ≠ ']') :
    parseJVal (f + 1) ('[' :: c0 :: L1)
      = (parseJArr f (c0 :: L1)).map
          (fun p : JArr × List Char => (JVal.jarr p.1, p.2)) := by
  show (match c0 :: L1 with
        | ']' :: r => some (JVal.jarr .anil, r)
        | _ => (parseJArr f (c0 :: L1)).map
            (fun p : JArr × List Char => (JVal.jarr p.1, p.2))) = _
  split
  · rename_i r heq
    exact absurd (List.cons.inj heq).1 h
  · rfl

set_option maxHeartbeats 1000000 in
theorem parseJVal_obj (f : Nat) (c0 : Char) (L1 : List Char) (h : c0 ≠ rbrace) :
    parseJVal (f + 1) (lbrace :: c0 :: L1)
      = (parseJObj f (c0 :: L1)).map
          (fun p : JObj × List Char => (JVal.jobj p.1, p.2)) := by
  show (if c0 = rbrace then some (JVal.jobj .onil, L1)
        else (parseJObj f (c0 :: L1)).map
          (fun p : JObj × List Char => (JVal.jobj p.1, p.2))) = _
  rw [if_neg h]

set_option maxHeartbeats 1000000 in
theorem parseJVal_digit (f : Nat) (c : Char) (rest : List Char)
    (h : isDigitCh c = true) :
    parseJVal (f + 1) (c :: rest)
      = (match takeDigits (c :: rest) with
         | (ds, r) => some (.jnum (.fin (digitsVal ds : Int)), r)) := by
  have hb : 48 ≤ c.toNat ∧ c.toNat ≤ 57 := by
    simpa [isDigitCh] using h
  have ne : ∀ d : Char, d.toNat < 48 ∨ 57 < d.toNat → c ≠ d := by
    intro d hd he
    subst he
    omega
  simp only [parseJVal]
  rw [if_neg (ne 'n' (by right; decide)), if_neg (ne 't' (by right; decide)),
      if_neg (ne 'f' (by right; decide)), if_neg (ne '"' (by left; decide)),
      if_neg (ne '[' (by right; decide)), if_neg (ne lbrace (by right; decide)),
      if_neg (ne '-' (by left; decide)), if_pos h]

theorem intDigits_head (n : Int) :
    ∃ c t, intDigits n = c :: t ∧
      (c = '-' ∨ isDigitCh c = true) := by
  unfold intDigits
  split
  · exact ⟨'-', _, rfl, Or.inl rfl⟩
  · obtain ⟨c, t, hct, hd⟩ := natDigits_head n.toNat
    exact ⟨c, t, hct, Or.inr hd⟩

theorem jsonStr_head (v : JVal) :
    ∃ c t, jsonStr v = c :: t ∧ c ≠ ']' ∧ c ≠ rbrace ∧ c ≠ ',' := by
  cases v with
  | jnull => exact ⟨'n', _, rfl, by decide⟩
  | jbool b =>
    cases b with
    | true => exact ⟨'t', _, rfl, by decide⟩
    | false => exact ⟨'f', _, rfl, by decide⟩
  | jnum x =>
    cases x with
    | fin n =>
      obtain ⟨c, t, hct, hd⟩ := intDigits_head n
      refine ⟨c, t, hct, ?_, ?_, ?_⟩ <;>
        rcases hd with hd | hd <;>
          first
          | (subst hd; decide)
          | (intro he
             subst he
             exact absurd hd (by decide))
    | nan => exact ⟨'n', _, rfl, by decide⟩
    | inf => exact ⟨'n', _, rfl, by decide⟩
    | ninf => exact ⟨'n', _, rfl, by decide⟩
  | jstr s => exact ⟨'"', _, rfl, by decide⟩
  | jarr a => exact ⟨'[', _, rfl, by decide⟩
  | jobj o => exact ⟨lbrace, _, rfl, by decide⟩

theorem sizeV_pos (v : JVal) : 1 ≤ sizeV v := by
  cases v <;> simp [sizeV]

set_option maxHeartbeats 1000000 in
mutual

theorem jsonRT_val : ∀ (v : JVal) (f : Nat) (rest : List Char),
    sizeV v ≤ f → finV v = true → headNotDigit rest = true →
    parseJVal f (jsonStr v ++ rest) = some (v, rest)
  | v, 0, _, hf, _, _ => absurd (le_trans (sizeV_pos v) hf) (by omega)
  | .jnull, f + 1, rest, _, _, _ => parseJVal_null f rest
  | .jbool true, f + 1, rest, _, _, _ => parseJVal_true f rest
  | .jbool false, f + 1, rest, _, _, _ => parseJVal_false f rest
  | .jnum (.fin n), f + 1, rest, _, _, hrest => by
    by_cases hn : n < 0
    · have hid : intDigits n = '-' :: natDigits (-n).toNat := by
        unfold intDigits
        rw [if_pos hn]
      rw [show jsonStr (.jnum (.fin n)) ++ rest
            = '-' :: (natDigits (-n).toNat ++ rest) from by simp [jsonStr, hid]]
      rw [parseJVal_minus]
      rw [takeDigits_append _ _ (natDigits_all_digits _) hrest]
      obtain ⟨c, t, hct, _⟩ := natDigits_head (-n).toNat
      rw [hct]
      show some (JVal.jnum (JNum.fin (-(digitsVal (c :: t) : Int))), rest) = _
      rw [← hct, digitsVal_natDigits]
      have hcast : -(((-n).toNat : Int)) = n := by omega
      rw [hcast]
    · have hid : intDigits n = natDigits n.toNat := by
        unfold intDigits
        rw [if_neg hn]
      obtain ⟨c, t, hct, hd⟩ := natDigits_head n.toNat
      rw [show jsonStr (.jnum (.fin n)) ++ rest = c :: (t ++ rest) from by
        simp [jsonStr, hid, hct]]
      rw [parseJVal_digit f c (t ++ rest) hd]
      have hall : ∀ x ∈ c :: t, isDigitCh x = true := by
        rw [← hct]
        exact natDigits_all_digits _
      have htk : takeDigits ((c :: t) ++ rest) = (c :: t, rest) :=
        takeDigits_append _ _ hall hrest
      rw [show c :: (t ++ rest) = (c :: t) ++ rest from rfl, htk]
      show some (JVal.jnum (JNum.fin (digitsVal (c :: t) : Int)), rest) = _
      rw [← hct, digitsVal_natDigits]
      have hcast : ((n.toNat : Int)) = n := Int.toNat_of_nonneg (by omega)
      rw [hcast]
  | .jnum .nan, _ + 1, _, _, hfin, _ => by simp [finV] at hfin
  | .jnum .inf, _ + 1, _, _, hfin, _ => by simp [finV] at hfin
  | .jnum .ninf, _ + 1, _, _, hfin, _ => by simp [finV] at hfin
  | .jstr s, f + 1, rest, _, _, _ => by
    rw [show jsonStr (.jstr s) ++ rest = '"' :: (escStr s ++ '"' :: rest) from by
      simp [jsonStr]]
    rw [parseJVal_quote, parseJStr_escStr]
    rfl
  | .jarr .anil, f + 1, rest, _, _, _ => parseJVal_arr_nil f rest
  | .jarr (.acons v t), f + 1, rest, hf, hfin, _ => by
    obtain ⟨c0, t0, hct, hne, _, _⟩ := jsonStr_head v
    have harr : ∃ L1, jsonArr (.acons v t) ++ ']' :: rest = c0 :: L1 := by
      cases t <;> simp [jsonArr, hct]
    obtain ⟨L1, hL1⟩ := harr
    rw [show jsonStr (.jarr (.acons v t)) ++ rest
          = '[' :: (jsonArr (.acons v t) ++ ']' :: rest) from by simp [jsonStr]]
    rw [hL1, parseJVal_arr f c0 L1 hne, ← hL1]
    rw [jsonRT_arr (JArr.acons v t) f rest (by simp [sizeV] at hf; omega)
      (by simpa [finV] using hfin) (by simp)]
    rfl
  | .jobj .onil, f + 1, rest, _, _, _ => parseJVal_obj_nil f rest
  | .jobj (.ocons k v t), f + 1, rest, hf, hfin, _ => by
    have hobj : ∃ L1, jsonObj (.ocons k v t) ++ rbrace :: rest = '"' :: L1 := by
      cases t <;> simp [jsonObj]
    obtain ⟨L1, hL1⟩ := hobj
    rw [show jsonStr (.jobj (.ocons k v t)) ++ rest
          = lbrace :: (jsonObj (.ocons k v t) ++ rbrace :: rest) from by
        simp [jsonStr]]
    rw [hL1, parseJVal_obj f '"' L1 (by decide), ← hL1]
    rw [jsonRT_obj (JObj.ocons k v t) f rest (by simp [sizeV] at hf; omega)
      (by simpa [finV] using hfin) (by simp)]
    rfl

theorem jsonRT_arr : ∀ (a : JArr) (f : Nat) (rest : List Char),
    sizeA a ≤ f → finA a = true → a ≠ .anil →
    parseJArr f (jsonArr a ++ ']' :: rest) = some (a, rest)
  | .anil, _, _, _, _, hne => absurd rfl hne
  | .acons v t, f, rest, hf, hfin, _ => by
    cases f with
    | zero => simp [sizeA] at hf
    | succ f =>
      have hfin' : finV v = true ∧ finA t = true := by
        simpa [finA, Bool.and_eq_true] using hfin
      cases t with
      | anil =>
        rw [show jsonArr (.acons v .anil) ++ ']' :: rest
              = jsonStr v ++ ']' :: rest from by simp [jsonArr]]
        simp only [parseJArr]
        rw [jsonRT_val v f (']' :: rest) (by simp [sizeA] at hf; omega)
          hfin'.1 (by rfl)]
        rfl
      | acons v2 t2 =>
        rw [show jsonArr (.acons v (.acons v2 t2)) ++ ']' :: rest
              = jsonStr v ++ ',' :: (jsonArr (.acons v2 t2) ++ ']' :: rest) from by
            simp [jsonArr]]
        simp only [parseJArr]
        rw [jsonRT_val v f (',' :: (jsonArr (.acons v2 t2) ++ ']' :: rest))
          (by simp [sizeA] at hf ⊢; omega) hfin'.1 (by rfl)]
        show Option.map (fun p : JArr × List Char => (JArr.acons v p.1, p.2))
            (parseJArr f (jsonArr (JArr.acons v2 t2) ++ ']' :: rest))
          = some (JArr.acons v (JArr.acons v2 t2), rest)
        rw [jsonRT_arr (JArr.acons v2 t2) f rest (by simp [sizeA] at hf ⊢; omega)
          hfin'.2 (by simp)]
        rfl

theorem jsonRT_obj : ∀ (o : JObj) (f : Nat) (rest : List Char),
    sizeO o ≤ f → finO o = true → o ≠ .onil →
    parseJObj f (jsonObj o ++ rbrace :: rest) = some (o, rest)
  | .onil, _, _, _, _, hne => absurd rfl hne
  | .ocons k v t, f, rest, hf, hfin, _ => by
    cases f with
    | zero => simp [sizeO] at hf
    | succ f =>
      have hfin' : finV v = true ∧ finO t = true := by
        simpa [finO, Bool.and_eq_true] using hfin
      cases t with
      | onil =>
        rw [show jsonObj (.ocons k v .onil) ++ rbrace :: rest
              = '"' :: (escStr k ++ '"' :: ':' :: (jsonStr v ++ rbrace :: rest))
            from by simp [jsonObj]]
        simp only [parseJObj]
        rw [parseJStr_escStr]
        show (match parseJVal f (jsonStr v ++ rbrace :: rest) with
              | none => none
              | some (v2, r3) =>
                match r3 with
                | ',' :: r4 =>
                    Option.map
                      (fun p : JObj × List Char => (JObj.ocons k v2 p.1, p.2))
                      (parseJObj f r4)
                | c :: r4 =>
                    if c = rbrace then some (JObj.ocons k v2 JObj.onil, r4)
                    else none
                | [] => none)
            = some (JObj.ocons k v JObj.onil, rest)
        rw [jsonRT_val v f (rbrace :: rest) (by simp [sizeO] at hf; omega)
          hfin'.1 (by rfl)]
        rfl
      | ocons k2 v2 t2 =>
        rw [show jsonObj (.ocons k v (.ocons k2 v2 t2)) ++ rbrace :: rest
              = '"' :: (escStr k ++ '"' :: ':' :: (jsonStr v ++
                  ',' :: (jsonObj (.ocons k2 v2 t2) ++ rbrace :: rest)))
            from by simp [jsonObj]]
        simp only [parseJObj]
        rw [parseJStr_escStr]
        show (match parseJVal f (jsonStr v ++
                ',' :: (jsonObj (JObj.ocons k2 v2 t2) ++ rbrace :: rest)) with
              | none => none
              | some (w, r3) =>
                match r3 with
                | ',' :: r4 =>
                    Option.map
                      (fun p : JObj × List Char => (JObj.ocons k w p.1, p.2))
                      (parseJObj f r4)
                | c :: r4 =>
                    if c = rbrace then some (JObj.ocons k w JObj.onil, r4)
                    else none
                | [] => none)
            = some (JObj.ocons k v (JObj.ocons k2 v2 t2), rest)
        rw [jsonRT_val v f (',' :: (jsonObj (JObj.ocons k2 v2 t2) ++ rbrace :: rest))
          (by simp [sizeO] at hf ⊢; omega) hfin'.1 (by rfl)]
        show Option.map (fun p : JObj × List Char => (JObj.ocons k v p.1, p.2))
            (parseJObj f (jsonObj (JObj.ocons k2 v2 t2) ++ rbrace :: rest))
          = some (JObj.ocons k v (JObj.ocons k2 v2 t2), rest)
        rw [jsonRT_obj (JObj.ocons k2 v2 t2) f rest (by simp [sizeO] at hf ⊢; omega)
          hfin'.2 (by simp)]
        rfl

end

theorem jsonStr_length_pos (v : JVal) : 1 ≤ (jsonStr v).length := by
  obtain ⟨c, t, h, _, _, _⟩ := jsonStr_head v
  rw [h]
  simp

mutual

theorem sizeV_le_len : ∀ v : JVal, sizeV v ≤ (jsonStr v).length
  | .jarr a => by
    have h := sizeA_le_len a
    simp only [sizeV, jsonStr, List.length_cons, List.length_append] at *
    omega
  | .jobj o => by
    have h := sizeO_le_len o
    simp only [sizeV, jsonStr, List.length_cons, List.length_append] at *
    omega
  | .jnull => jsonStr_length_pos _
  | .jbool b => jsonStr_length_pos _
  | .jnum j => jsonStr_length_pos _
  | .jstr s => jsonStr_length_pos _

theorem sizeA_le_len : ∀ a : JArr, sizeA a ≤ (jsonArr a).length + 1
  | .anil => by simp [sizeA]
  | .acons v .anil => by
    have h := sizeV_le_len v
    simp only [sizeA, jsonArr] at *
    omega
  | .acons v (.acons v2 t2) => by
    have h1 := sizeV_le_len v
    have h2 := sizeA_le_len (.acons v2 t2)
    simp only [sizeA, jsonArr, List.length_append, List.length_cons] at *
    omega

theorem sizeO_le_len : ∀ o : JObj, sizeO o ≤ (jsonObj o).length + 1
  | .onil => by simp [sizeO]
  | .ocons k v .onil => by
    have h := sizeV_le_len v
    simp only [sizeO, jsonObj, List.length_append, List.length_cons] at *
    omega
  | .ocons k v (.ocons k2 v2 t2) => by
    have h1 := sizeV_le_len v
    have h2 := sizeO_le_len (.ocons k2 v2 t2)
    simp only [sizeO, jsonObj, List.length_append, List.length_cons] at *
    omega

end

/-- Round trip of the verified JSON codec on finite values. -/
theorem JSONparse_JSONstringify (v : JVal) (hfin : finV v = true) :
    JSONparse (JSONstringify v) = some v := by
  have h := jsonRT_val v ((jsonStr v).length + 1) []
    (Nat.le_succ_of_le (sizeV_le_len v)) hfin rfl
  rw [List.append_nil] at h
  show (match parseJVal ((jsonStr v).length + 1) (jsonStr v) with
        | some (w, []) => some w
        | _ => none) = some v
  rw [h]

/- ### Raw localStorage model and the storage wrapper of
   src/js/achievement-notification.js (lines 585, 629-655, 712-723).
   localStorage is an association list of raw strings; `getItem` returns
   `none` for JS `null`. -/

def lsGetItem : List (String × String) → String → Option String
  | [], _ => none
  | (k', v) :: t, k => if k' = k then some v else lsGetItem t k

def lsSetItem : List (String × String) → String → String → List (String × String)
  | [], k, v => [(k, v)]
  | (k', v') :: t, k, v =>
      if k' = k then (k, v) :: t else (k', v') :: lsSetItem t k v

def STORAGE_PREFIX : String := "FPR_v1_"

def containsCh (s : String) (c : Char) : Bool := s.data.contains c

/-- `storage.set(key, value)`: `ls.setItem(PREFIX + key, JSON.stringify(value))`. -/
def storage.set (ls : List (String × String)) (key : String) (value : JVal) :
    List (String × String) :=
  lsSetItem ls (STORAGE_PREFIX ++ key) (JSONstringify value)

/-- `storage.get(key, defaultValue)`: read the prefixed item, `JSON.parse` it;
on parse failure return the default when the item looks like malformed JSON
(contains one of the three JSON-ish characters), else the raw string. -/
def storage.get (ls : List (String × String)) (key : String) (deflt : JVal) : JVal :=
  match lsGetItem ls (STORAGE_PREFIX ++ key) with
  | none => deflt
  | some item =>
    match JSONparse item with
    | some v => v
    | none =>
      if containsCh item lbrace || containsCh item '[' || containsCh item '"'
      then deflt else .jstr item.data

theorem lsGetItem_set_self (ls : List (String × String)) (k v : String) :
    lsGetItem (lsSetItem ls k v) k = some v := by
  induction ls with
  | nil => simp [lsGetItem, lsSetItem]
  | cons p t ih =>
    obtain ⟨k', v'⟩ := p
    simp only [lsSetItem]
    by_cases h : k' = k
    · simp [lsGetItem, h]
    · rw [if_neg h]
      simp only [lsGetItem]
      rw [if_neg h, ih]

/-- C9 (amended): for every underlying store, key, default and *finite*
structured value v (no NaN or ±Infinity anywhere inside), `storage.get`
after `storage.set` returns exactly v, with its type preserved: the value
travels through `JSON.stringify`/`JSON.parse`, so a number stays a number
and never becomes a string. -/
theorem storage_roundtrip_typed (ls : List (String × String)) (k : String)
    (d v : JVal) (hfin : finV v = true) :
    storage.get (storage.set ls k v) k d = v := by
  simp only [storage.get, storage.set]
  rw [lsGetItem_set_self]
  show (match JSONparse (JSONstringify v) with
        | some w => w
        | none =>
          if (containsCh (JSONstringify v) lbrace
              || containsCh (JSONstringify v) '['
              || containsCh (JSONstringify v) '"') = true
          then d else .jstr (JSONstringify v).data) = v
  rw [JSONparse_JSONstringify v hfin]

/-- C9 counterexample: `NaN` is a JS number, but `JSON.stringify(NaN)`
is the string "null", so writing the number NaN and reading it back
yields `null`, not a value structurally equal to what was written. -/
theorem storage_nan_not_roundtrip :
    storage.get (storage.set [] "score" (JVal.jnum JNum.nan)) "score" JVal.jnull
        = JVal.jnull
      ∧ JVal.jnull ≠ JVal.jnum JNum.nan := by
  constructor
  · decide
  · decide

/-- C9 witness: the number 42 written to an empty store reads back as the
number 42 (not the string "42"). -/
theorem storage_roundtrip_typed_witness :
    finV (JVal.jnum (JNum.fin 42)) = true ∧
    storage.get (storage.set [] "answer" (JVal.jnum (JNum.fin 42))) "answer"
        JVal.jnull
      = JVal.jnum (JNum.fin 42) :=
  ⟨by decide,
   storage_roundtrip_typed [] "answer" JVal.jnull (JVal.jnum (JNum.fin 42))
     (by decide)⟩

/- ### resetProgress of src/js/progress.js (lines 204-233): collect every
   localStorage key that starts with the 'FPR_v1_' prefix, then remove
   exactly those keys. -/

def strStartsWith (s p : String) : Bool :=
  decide (s.data.take p.data.length = p.data)

def lsRemoveItem : List (String × String) → String → List (String × String)
  | [], _ => []
  | (k', v) :: t, k => if k' = k then t else (k', v) :: lsRemoveItem t k

def resetProgress (ls : List (String × String)) : List (String × String) :=
  let keysToRemove :=
    (ls.map Prod.fst).filter (fun k => strStartsWith k STORAGE_PREFIX)
  keysToRemove.foldl lsRemoveItem ls

theorem lsGetItem_some_mem (ls : List (String × String)) (k : String) (v : String)
    (h : lsGetItem ls k = some v) : k ∈ ls.map Prod.fst := by
  induction ls with
  | nil => simp [lsGetItem] at h
  | cons p t ih =>
    obtain ⟨k', v'⟩ := p
    simp only [lsGetItem] at h
    by_cases hk : k' = k
    · simp [hk]
    · rw [if_neg hk] at h
      simp [ih h]

theorem lsGetItem_not_mem (ls : List (String × String)) (k : String)
    (h : k ∉ ls.map Prod.fst) : lsGetItem ls k = none := by
  cases hg : lsGetItem ls k with
  | none => rfl
  | some v => exact absurd (lsGetItem_some_mem ls k v hg) h

theorem lsRemoveItem_self_none (ls : List (String × String)) (k : String)
    (hnd : (ls.map Prod.fst).Nodup) : lsGetItem (lsRemoveItem ls k) k = none := by
  induction ls with
  | nil => simp [lsRemoveItem, lsGetItem]
  | cons p t ih =>
    obtain ⟨k', v'⟩ := p
    simp only [List.map_cons, List.nodup_cons] at hnd
    simp only [lsRemoveItem]
    by_cases hk : k' = k
    · rw [if_pos hk]
      exact lsGetItem_not_mem t k (hk ▸ hnd.1)
    · rw [if_neg hk]
      simp only [lsGetItem]
      rw [if_neg hk]
      exact ih hnd.2

theorem lsRemoveItem_none_preserve (ls : List (String × String)) (k0 k : String)
    (h : lsGetItem ls k = none) : lsGetItem (lsRemoveItem ls k0) k = none := by
  induction ls with
  | nil => simp [lsRemoveItem, lsGetItem]
  | cons p t ih =>
    obtain ⟨k', v'⟩ := p
    simp only [lsGetItem] at h
    by_cases hk : k' = k
    · rw [if_pos hk] at h
      exact absurd h (by simp)
    · rw [if_neg hk] at h
      simp only [lsRemoveItem]
      by_cases hk0 : k' = k0
      · rw [if_pos hk0]
        exact h
      · rw [if_neg hk0]
        simp only [lsGetItem]
        rw [if_neg hk]
        exact ih h

theorem lsRemoveItem_keys_sublist (ls : List (String × String)) (k : String) :
    ((lsRemoveItem ls k).map Prod.fst).Sublist (ls.map Prod.fst) := by
  induction ls with
  | nil => simp [lsRemoveItem]
  | cons p t ih =>
    obtain ⟨k', v'⟩ := p
    simp only [lsRemoveItem]
    by_cases hk : k' = k
    · rw [if_pos hk]
      exact List.sublist_cons_of_sublist _ (List.Sublist.refl _)
    · rw [if_neg hk]
      simpa using List.Sublist.cons₂ k' ih

theorem lsRemoveItem_nodup (ls : List (String × String)) (k : String)
    (hnd : (ls.map Prod.fst).Nodup) :
    ((lsRemoveItem ls k).map Prod.fst).Nodup :=
  List.Nodup.sublist (lsRemoveItem_keys_sublist ls k) hnd

theorem lsRemoveItem_other (ls : List (String × String)) (k0 k : String)
    (h : k0 ≠ k) : lsGetItem (lsRemoveItem ls k0) k = lsGetItem ls k := by
  induction ls with
  | nil => simp [lsRemoveItem]
  | cons p t ih =>
    obtain ⟨k', v'⟩ := p
    simp only [lsRemoveItem]
    by_cases hk0 : k' = k0
    · rw [if_pos hk0]
      simp only [lsGetItem]
      rw [if_neg (hk0 ▸ h)]
    · rw [if_neg hk0]
      simp only [lsGetItem]
      by_cases hk : k' = k
      · rw [if_pos hk, if_pos hk]
      · rw [if_neg hk, if_neg hk]
        exact ih

theorem foldl_remove_none (ks : List String) (k : String) :
    ∀ ls : List (String × String), (ls.map Prod.fst).Nodup →
    (k ∈ ks ∨ lsGetItem ls k = none) →
    lsGetItem (ks.foldl lsRemoveItem ls) k = none := by
  induction ks with
  | nil =>
    intro ls _ h
    simpa using h.resolve_left (by simp)
  | cons k0 ks ih =>
    intro ls hnd h
    simp only [List.foldl_cons]
    refine ih (lsRemoveItem ls k0) (lsRemoveItem_nodup ls k0 hnd) ?_
    rcases h with hmem | hnone
    · rcases List.mem_cons.mp hmem with heq | htail
      · exact Or.inr (heq ▸ lsRemoveItem_self_none ls k0 hnd)
      · exact Or.inl htail
    · exact Or.inr (lsRemoveItem_none_preserve ls k0 k hnone)

theorem foldl_remove_frame (ks : List String) (k : String) :
    ∀ ls : List (String × String), (∀ k0 ∈ ks, k0 ≠ k) →
    lsGetItem (ks.foldl lsRemoveItem ls) k = lsGetItem ls k := by
  induction ks with
  | nil => intro ls _; rfl
  | cons k0 ks ih =>
    intro ls hne
    simp only [List.foldl_cons]
    rw [ih (lsRemoveItem ls k0) (fun x hx => hne x (List.mem_cons_of_mem _ hx))]
    exact lsRemoveItem_other ls k0 k (hne k0 (List.mem_cons_self _ _))

theorem prefix_startsWith (key : String) :
    strStartsWith (STORAGE_PREFIX ++ key) STORAGE_PREFIX = true := by
  simp only [strStartsWith, String.data_append, decide_eq_true_eq]
  exact List.take_left _ _

/-- C8: after resetProgress on a store whose keys are distinct (the
localStorage invariant), every key carrying the 'FPR_v1_' namespace prefix
is gone — so every wrapper read returns its default — and every key
without the prefix reads back exactly as before (not modified or removed). -/
theorem resetProgress_complete_and_frame (ls : List (String × String))
    (hnd : (ls.map Prod.fst).Nodup) :
    (∀ (key : String) (d : JVal), storage.get (resetProgress ls) key d = d) ∧
    (∀ k : String, strStartsWith k STORAGE_PREFIX = false →
       lsGetItem (resetProgress ls) k = lsGetItem ls k) := by
  constructor
  · intro key d
    have hnone : lsGetItem (resetProgress ls) (STORAGE_PREFIX ++ key) = none := by
      apply foldl_remove_none _ _ ls hnd
      cases hg : lsGetItem ls (STORAGE_PREFIX ++ key) with
      | none => exact Or.inr rfl
      | some v =>
        refine Or.inl (List.mem_filter.mpr ⟨lsGetItem_some_mem _ _ _ hg, ?_⟩)
        exact prefix_startsWith key
    simp only [storage.get]
    rw [hnone]
  · intro k hk
    apply foldl_remove_frame
    intro k0 hk0 heq
    subst heq
    exact absurd (List.mem_filter.mp hk0).2 (by simp [hk])

/-- C8 witness: in the concrete store [("FPR_v1_streak","5"), ("other","x")],
reset makes the wrapper read of "streak" return its default and leaves the
unprefixed key "other" untouched. -/
theorem resetProgress_complete_and_frame_witness :
    (([("FPR_v1_streak", "5"), ("other", "x")].map Prod.fst).Nodup ∧
     strStartsWith "other" STORAGE_PREFIX = false) ∧
    storage.get (resetProgress [("FPR_v1_streak", "5"), ("other", "x")])
        "streak" (JVal.jnum (JNum.fin 0)) = JVal.jnum (JNum.fin 0) ∧
    lsGetItem (resetProgress [("FPR_v1_streak", "5"), ("other", "x")]) "other"
      = lsGetItem [("FPR_v1_streak", "5"), ("other", "x")] "other" :=
  ⟨⟨by decide, by decide⟩,
   (resetProgress_complete_and_frame _ (by decide)).1 "streak" _,
   (resetProgress_complete_and_frame _ (by decide)).2 "other" (by decide)⟩

/- ### importData — src/js/progress.js (lines 145-184) and the enhanced
   variant src/unnamed/part_003 (lines 197-244).
   The import document is a JVal; the store is the wrapper-level view
   (`storage.set` JSON-stringifies, so every write is a string value).
   The only throw reachable on the documents we evaluate is the initial
   shape guard, so the surrounding try/catch is folded into a result
   triple (store, success, error). -/

def typeofIsObject : JVal → Bool
  | .jnull => true
  | .jobj _ => true
  | .jarr _ => true
  | _ => false

def typeofIsNumber : JVal → Bool
  | .jnum _ => true
  | _ => false

/-- `v.k` property access; `none` models `undefined`. -/
def jGetField : JVal → List Char → Option JVal
  | .jobj o, k => o.find k
  | _, _ => none

def jHasField (v : JVal) (k : List Char) : Bool :=
  match v with
  | .jobj o => o.hasField k
  | _ => false

def JObj.toList : JObj → List (List Char × JVal)
  | .onil => []
  | .ocons k v t => (k, v) :: t.toList

/-- `Object.entries` (empty on non-objects). -/
def jEntries : JVal → List (List Char × JVal)
  | .jobj o => o.toList
  | _ => []

/-- `Object.values`. -/
def jValues (v : JVal) : List JVal := (jEntries v).map Prod.snd

/-- JS `String(v)` coercion. -/
def jsStringCoerce : JVal → List Char
  | .jnull => 'n' :: 'u' :: 'l' :: 'l' :: []
  | .jbool true => 't' :: 'r' :: 'u' :: 'e' :: []
  | .jbool false => 'f' :: 'a' :: 'l' :: 's' :: 'e' :: []
  | .jnum (.fin n) => intDigits n
  | .jnum .nan => 'N' :: 'a' :: 'N' :: []
  | .jnum .inf => "Infinity".data
  | .jnum .ninf => "-Infinity".data
  | .jstr s => s
  | .jarr _ => []
  | .jobj _ => "[object Object]".data

/-- JS `x > 0` after number coercion. -/
def numGtZero (v : JVal) : Bool :=
  match jsNumber v with
  | .fin n => decide (0 < n)
  | .inf => true
  | _ => false

/-- `Math.max` on two numbers (NaN propagates). -/
def jnumMax : JNum → JNum → JNum
  | .nan, _ => .nan
  | _, .nan => .nan
  | .inf, _ => .inf
  | _, .inf => .inf
  | .ninf, b => b
  | a, .ninf => a
  | .fin a, .fin b => .fin (max a b)

def exKeySessions (id : List Char) : String :=
  ⟨"exercise:".data ++ id ++ ":sessions".data⟩

def exKeyBest (id : List Char) : String :=
  ⟨"exercise:".data ++ id ++ ":best".data⟩

/-- One iteration of the exercises loop of js/progress.js importData. -/
def Progress.importExercise (st : List (String × JVal)) (id : List Char)
    (ed : JVal) : List (String × JVal) :=
  let st1 :=
    match jGetField ed ('s' :: "essions".data) with
    | some sv =>
        if jTruthy sv
        then storeSet st (exKeySessions id) (.jstr (jsStringCoerce sv))
        else st
    | none => st
  match jGetField ed ('b' :: "est".data) with
  | some bv =>
      if jTruthy bv && typeofIsObject bv then
        let bestScore : JVal :=
          if typeofIsNumber bv then bv
          else
            match jGetField bv ('e' :: "asy".data) with
            | some e => if jTruthy e then e else .jnum (.fin 0)
            | none => .jnum (.fin 0)
        if numGtZero bestScore
        then storeSet st1 (exKeyBest id) (.jstr (jsStringCoerce bestScore))
        else st1
      else st1
  | none => st1

/-- importData of js/progress.js: no version check anywhere. -/
def Progress.importData (st : List (String × JVal)) (data : JVal) :
    List (String × JVal) × Bool × Option (List Char) :=
  if !(jTruthy data && typeofIsObject data) then
    (st, false, some "Invalid import data".data)
  else
    let st1 :=
      match jGetField data ('e' :: "xercises".data) with
      | some e =>
          if jTruthy e
          then (jEntries e).foldl
            (fun s p => Progress.importExercise s p.1 p.2) st
          else st
      | none => st
    let st2 :=
      if jHasField data ('t' :: "otalSessions".data) then
        storeSet st1 "totalSessions"
          (.jstr (jsStringCoerce
            ((jGetField data ('t' :: "otalSessions".data)).getD .jnull)))
      else st1
    let st3 :=
      if jHasField data ('s' :: "treak".data) then
        storeSet st2 "streak"
          (.jstr (jsStringCoerce
            ((jGetField data ('s' :: "treak".data)).getD .jnull)))
      else st2
    let st4 :=
      if jHasField data ('a' :: "chievements".data) then
        storeSet st3 "achievements"
          (.jstr (jsonStr ((jGetField data ('a' :: "chievements".data)).getD .jnull)))
      else st3
    (st4, true, none)

/-- One iteration of the exercises loop of the enhanced importData
(src/unnamed/part_003). -/
def ProgressV2.importExercise (st : List (String × JVal)) (id : List Char)
    (ed : JVal) : List (String × JVal) :=
  let st1 :=
    if jHasField ed ('s' :: "essions".data) then
      let sv := (jGetField ed ('s' :: "essions".data)).getD .jnull
      let sv2 := if jTruthy sv then sv else .jnum (.fin 0)
      storeSet st (exKeySessions id) (.jstr (jsStringCoerce sv2))
    else st
  if jHasField ed ('b' :: "est".data) then
    let bv := (jGetField ed ('b' :: "est".data)).getD .jnull
    let bestScore : JNum :=
      if typeofIsNumber bv then
        match bv with
        | .jnum x => x
        | _ => .fin 0
      else if jTruthy bv && typeofIsObject bv then
        let nums := (jValues bv).filterMap
          (fun v => match v with | .jnum x => some x | _ => none)
        match nums with
        | [] => .fin 0
        | n :: t => t.foldl jnumMax n
      else .fin 0
    storeSet st1 (exKeyBest id) (.jstr (jsStringCoerce (.jnum bestScore)))
  else st1

/-- importData of the enhanced module: still no version check. -/
def ProgressV2.importData (st : List (String × JVal)) (data : JVal) :
    List (String × JVal) × Bool × Option (List Char) :=
  if !(jTruthy data && typeofIsObject data) then
    (st, false, some "Invalid import data".data)
  else
    let st1 :=
      match jGetField data ('e' :: "xercises".data) with
      | some e =>
          if jTruthy e && typeofIsObject e
          then (jEntries e).foldl
            (fun s p => ProgressV2.importExercise s p.1 p.2) st
          else st
      | none => st
    let st2 :=
      if jHasField data ('t' :: "otalSessions".data) then
        storeSet st1 "totalSessions"
          (.jstr (jsStringCoerce
            ((jGetField data ('t' :: "otalSessions".data)).getD .jnull)))
      else st1
    let st3 :=
      if jHasField data ('s' :: "treak".data) then
        storeSet st2 "streak"
          (.jstr (jsStringCoerce
            ((jGetField data ('s' :: "treak".data)).getD .jnull)))
      else st2
    let st4 :=
      if jHasField data ('a' :: "chievements".data) then
        storeSet st3 "achievements"
          (.jstr (jsonStr ((jGetField data ('a' :: "chievements".data)).getD .jnull)))
      else st3
    (st4, true, none)

/-- C2: neither importData variant inspects a version tag. Importing the
document \x7bversion: 2, streak: 7\x7d — whose version differs from the
expected schema — returns success (not a version-mismatch failure) and
overwrites the stored streak key, so storage is not left as it was. -/
theorem importData_ignores_version :
    (Progress.importData []
        (.jobj (.ocons "version".data (.jnum (.fin 2))
           (.ocons "streak".data (.jnum (.fin 7)) .onil)))).2.1 = true ∧
    storeGet (Progress.importData []
        (.jobj (.ocons "version".data (.jnum (.fin 2))
           (.ocons "streak".data (.jnum (.fin 7)) .onil)))).1 "streak"
      = some (.jstr ('7' :: [])) ∧
    (ProgressV2.importData []
        (.jobj (.ocons "version".data (.jnum (.fin 2))
           (.ocons "streak".data (.jnum (.fin 7)) .onil)))).2.1 = true ∧
    storeGet (ProgressV2.importData []
        (.jobj (.ocons "version".data (.jnum (.fin 2))
           (.ocons "streak".data (.jnum (.fin 7)) .onil)))).1 "streak"
      = some (.jstr ('7' :: [])) := by
  refine ⟨by decide, by decide, by decide, by decide⟩

/-- C5: importData of js/progress.js mishandles both legacy shapes of the
per-exercise best field: a plain-number best (best: 120) is dropped
entirely (the guard requires an object), and an object best
(best: \x7beasy: 50, hard: 90\x7d) stores the 'easy' entry 50 rather than the
maximum 90. The enhanced variant (src/unnamed/part_003) implements the
claimed behaviour: it stores 120 for the number shape and the maximum 90
for the object shape. -/
theorem importData_best_shapes :
    storeGet (Progress.importData []
        (.jobj (.ocons "exercises".data
          (.jobj (.ocons "pinch".data
            (.jobj (.ocons "best".data (.jnum (.fin 120)) .onil)) .onil))
          .onil))).1 (exKeyBest "pinch".data) = none ∧
    storeGet (Progress.importData []
        (.jobj (.ocons "exercises".data
          (.jobj (.ocons "pinch".data
            (.jobj (.ocons "best".data
              (.jobj (.ocons "easy".data (.jnum (.fin 50))
                (.ocons "hard".data (.jnum (.fin 90)) .onil))) .onil)) .onil))
          .onil))).1 (exKeyBest "pinch".data)
      = some (.jstr ('5' :: '0' :: [])) ∧
    storeGet (ProgressV2.importData []
        (.jobj (.ocons "exercises".data
          (.jobj (.ocons "pinch".data
            (.jobj (.ocons "best".data (.jnum (.fin 120)) .onil)) .onil))
          .onil))).1 (exKeyBest "pinch".data)
      = some (.jstr ('1' :: '2' :: '0' :: [])) ∧
    storeGet (ProgressV2.importData []
        (.jobj (.ocons "exercises".data
          (.jobj (.ocons "pinch".data
            (.jobj (.ocons "best".data
              (.jobj (.ocons "easy".data (.jnum (.fin 50))
                (.ocons "hard".data (.jnum (.fin 90)) .onil))) .onil)) .onil))
          .onil))).1 (exKeyBest "pinch".data)
      = some (.jstr ('9' :: '0' :: [])) := by
  refine ⟨by decide, by decide, by decide, by decide⟩

/- ### GamificationSystem — src/js/gamification.js.
   Ledger fields are JS numbers; the reachable states carry integers
   (parseInt results and integer point sums), so the state is modelled
   over Int.  `saveProgress` is modelled by the list of (key, value)
   writes it performs. -/

namespace Gamification

def levelThresholds : List (Nat × Int) :=
  [(1, 0), (2, 200), (3, 500), (4, 1000), (5, 1750),
   (6, 2750), (7, 4000), (8, 5500), (9, 7500), (10, 10000)]

def calcScan : List (Nat × Int) → Int → Nat
  | [], _ => 1
  | (lv, th) :: t, p => if th ≤ p then lv else calcScan t p

/-- `calculateLevel`: scan the threshold table from the top. -/
def calculateLevel (p : Int) : Nat := calcScan levelThresholds.reverse p

structure GamState where
  totalPoints : Int
  currentLevel : Nat
  sessionsCompleted : Int
  lastLevelUpPoints : Int
  nextLevelUpPoints : Int
deriving DecidableEq, Repr

def getLevelThreshold (level : Nat) : Int :=
  match levelThresholds.find? (fun t => t.1 == level) with
  | some t => t.2
  | none => ((levelThresholds.getLast?).map Prod.snd).getD 0

def resetState : GamState :=
  { totalPoints := 0, currentLevel := 1, sessionsCompleted := 0,
    lastLevelUpPoints := 0, nextLevelUpPoints := getLevelThreshold 2 }

/-- `loadProgress` from the two persisted integers: the level is always
recomputed from the points. -/
def loadProgress (tp sc : Int) : GamState :=
  let lvl := calculateLevel tp
  { totalPoints := tp, sessionsCompleted := sc, currentLevel := lvl,
    lastLevelUpPoints := getLevelThreshold lvl,
    nextLevelUpPoints :=
      if levelThresholds.length ≤ lvl then getLevelThreshold lvl
      else getLevelThreshold (lvl + 1) }

/-- `awardSessionPoints` (exerciseId and score do not affect the points). -/
def awardSessionPoints (s : GamState) (isPersonalBest : Bool)
    (currentStreak : Int) : GamState :=
  let pointsEarned : Int :=
    50 + (if isPersonalBest then 25 else 0)
      + (if 1 < currentStreak then min (currentStreak - 1) 5 * 10 else 0)
  let tp := s.totalPoints + pointsEarned
  let lvl := calculateLevel tp
  { totalPoints := tp, sessionsCompleted := s.sessionsCompleted + 1,
    currentLevel := lvl,
    lastLevelUpPoints := getLevelThreshold lvl,
    nextLevelUpPoints :=
      if levelThresholds.length ≤ lvl then getLevelThreshold lvl
      else getLevelThreshold (lvl + 1) }

def jIntOr0 : JVal → Int
  | .jnum (.fin n) => n
  | _ => 0

/-- `importData` (lines 416-433): version is checked, but the level is
taken from the document (`data.currentLevel || this.calculateLevel(...)`)
instead of being recomputed. -/
def importData (s : GamState) (data : JVal) : GamState × Bool :=
  if (jGetField data ('v' :: "ersion".data)) = some (.jnum (.fin 1)) then
    let tpv := (jGetField data ('t' :: "otalPoints".data)).getD .jnull
    let tp := if jTruthy tpv then jIntOr0 tpv else 0
    let clv := (jGetField data ('c' :: "urrentLevel".data)).getD .jnull
    let lvl := if jTruthy clv then (jIntOr0 clv).toNat else calculateLevel tp
    let scv := (jGetField data ('s' :: "essionsCompleted".data)).getD .jnull
    let sc := if jTruthy scv then jIntOr0 scv else 0
    ({ s with totalPoints := tp, currentLevel := lvl,
              sessionsCompleted := sc }, true)
  else (s, false)

/-- `saveProgress` (lines 128-141): the keys it writes. -/
def saveProgressWrites (s : GamState) : List (String × String) :=
  [("FPR_v1_totalPoints", intToStr s.totalPoints),
   ("FPR_v1_sessionsCompleted", intToStr s.sessionsCompleted)]

end Gamification

/-- C4: load, award and reset keep the reported level equal to
calculateLevel(totalPoints), and saveProgress never writes a level key;
but importData copies a truthy `currentLevel` from the document, so the
invariant is broken in a reachable state: importing
\x7bversion:1, totalPoints:0, currentLevel:7, sessionsCompleted:0\x7d
succeeds and reports level 7 while calculateLevel(0) = 1. -/
theorem gamification_level_invariant_broken :
    (∀ tp sc : Int,
       (Gamification.loadProgress tp sc).currentLevel
         = Gamification.calculateLevel (Gamification.loadProgress tp sc).totalPoints) ∧
    (∀ (s : Gamification.GamState) (pb : Bool) (streak : Int),
       (Gamification.awardSessionPoints s pb streak).currentLevel
         = Gamification.calculateLevel
             (Gamification.awardSessionPoints s pb streak).totalPoints) ∧
    Gamification.resetState.currentLevel
      = Gamification.calculateLevel Gamification.resetState.totalPoints ∧
    (∀ s : Gamification.GamState,
       (Gamification.saveProgressWrites s).map Prod.fst
         = ["FPR_v1_totalPoints", "FPR_v1_sessionsCompleted"]) ∧
    ((Gamification.importData Gamification.resetState
        (.jobj (.ocons "version".data (.jnum (.fin 1))
          (.ocons "totalPoints".data (.jnum (.fin 0))
            (.ocons "currentLevel".data (.jnum (.fin 7))
              (.ocons "sessionsCompleted".data (.jnum (.fin 0)) .onil)))))).2
        = true ∧
     (Gamification.importData Gamification.resetState
        (.jobj (.ocons "version".data (.jnum (.fin 1))
          (.ocons "totalPoints".data (.jnum (.fin 0))
            (.ocons "currentLevel".data (.jnum (.fin 7))
              (.ocons "sessionsCompleted".data (.jnum (.fin 0)) .onil)))))).1.currentLevel
        = 7 ∧
     Gamification.calculateLevel
       (Gamification.importData Gamification.resetState
          (.jobj (.ocons "version".data (.jnum (.fin 1))
            (.ocons "totalPoints".data (.jnum (.fin 0))
              (.ocons "currentLevel".data (.jnum (.fin 7))
                (.ocons "sessionsCompleted".data (.jnum (.fin 0)) .onil)))))).1.totalPoints
        = 1 ∧ (7 : Nat) ≠ 1) := by
  refine ⟨fun tp sc => rfl, fun s pb streak => rfl, by decide, fun s => rfl,
    by decide, by decide, by decide, by decide⟩

/- ### adaptiveDifficulty — src/js/exercises.js (lines 303-444).
   UNLOCK_RULES / DIFFICULTY_LABELS / getUnlockRule are imported from a
   module that is not part of the source tree, so the rules registry is a
   parameter shaped after the spec: exercise id → difficulty →
   \x7bbase, minSessions, minScore\x7d, iterated in insertion order. -/

structure UnlockRule where
  base : Option String
  minSessions : Int
  minScore : Int
deriving DecidableEq, Repr

abbrev Rules := List (String × List (String × UnlockRule))

structure PerfData where
  sessions : Nat
  bestScore : Int
  averageScore : ℚ
  scores : List Int
deriving DecidableEq, Repr

def defaultPerf : PerfData :=
  { sessions := 0, bestScore := 0, averageScore := 0, scores := [] }

structure ADState where
  perf : List (String × PerfData)
  unlocks : List (String × JVal)
deriving DecidableEq, Repr

def UNLOCK_NS : String := "FPR_v1_unlock"
def PERF_NS : String := "FPR_v1_perf"

def unlockKey (ex diff : String) : String := UNLOCK_NS ++ ":" ++ ex ++ ":" ++ diff

def perfKey (ex diff : String) : String := PERF_NS ++ ":" ++ ex ++ ":" ++ diff

def lookupPD : List (String × PerfData) → String → Option PerfData
  | [], _ => none
  | (k', v) :: t, k => if k' = k then some v else lookupPD t k

def setPD : List (String × PerfData) → String → PerfData →
    List (String × PerfData)
  | [], k, v => [(k, v)]
  | (k', v') :: t, k, v =>
      if k' = k then (k, v) :: t else (k', v') :: setPD t k v

def getUnlockRule (rules : Rules) (ex diff : String) : Option UnlockRule :=
  match rules.find? (fun p => p.1 == ex) with
  | some (_, m) => (m.find? (fun p => p.1 == diff)).map Prod.snd
  | none => none

def getPerformanceData (st : ADState) (ex diff : String) : PerfData :=
  (lookupPD st.perf (perfKey ex diff)).getD defaultPerf

/-- `isUnlocked`: no rule → always available; otherwise the stored value
must be `true` or the string 'true'. -/
def isUnlocked (rules : Rules) (st : ADState) (ex diff : String) : Bool :=
  match getUnlockRule rules ex diff with
  | none => true
  | some _ =>
    match storeGet st.unlocks (unlockKey ex diff) with
    | some v => v == JVal.jbool true || v == JVal.jstr ('t' :: 'r' :: 'u' :: 'e' :: [])
    | none => false

/-- Body of the inner forEach of `checkAllUnlocks`. -/
def checkStep (rules : Rules) (q : ADState × List (String × String))
    (e : String × String × UnlockRule) : ADState × List (String × String) :=
  if isUnlocked rules q.1 e.1 e.2.1 then q
  else
    match e.2.2.base with
    | none => q
    | some b =>
      if e.2.2.minSessions ≤ ((getPerformanceData q.1 e.1 b).sessions : Int)
         ∧ e.2.2.minScore ≤ (getPerformanceData q.1 e.1 b).bestScore then
        ({ q.1 with
            unlocks := storeSet q.1.unlocks (unlockKey e.1 e.2.1) (.jbool true) },
         q.2 ++ [(e.1, e.2.1)])
      else q

def checkAllUnlocks (rules : Rules) (st : ADState) :
    ADState × List (String × String) :=
  rules.foldl
    (fun p exr =>
      exr.2.foldl (fun q dr => checkStep rules q (exr.1, dr.1, dr.2)) p)
    (st, [])

/-- `recordSession`: update the tier's performance record, then
re-check all unlocks. -/
def recordSession (rules : Rules) (st : ADState) (ex diff : String)
    (score : Int) : ADState × List (String × String) :=
  let pd := getPerformanceData st ex diff
  let scores0 := pd.scores ++ [score]
  let scores :=
    if 20 < scores0.length then scores0.drop (scores0.length - 20) else scores0
  let sum : Int := scores.foldl (fun a b => a + b) 0
  let avg : ℚ := ((round ((sum : ℚ) * 10 / (scores.length : ℚ))) : ℤ) / 10
  let st2 : ADState :=
    { st with
        perf := setPD st.perf (perfKey ex diff)
          { sessions := pd.sessions + 1, bestScore := max pd.bestScore score,
            averageScore := avg, scores := scores } }
  checkAllUnlocks rules st2

def rulePairs (rules : Rules) : List (String × String × UnlockRule) :=
  rules.bind (fun exr => exr.2.map (fun dr => (exr.1, dr.1, dr.2)))

theorem foldl_nested_eq (R : Rules) (l : Rules) : ∀ init,
    l.foldl
      (fun p exr =>
        exr.2.foldl (fun q dr => checkStep R q (exr.1, dr.1, dr.2)) p) init
      = (l.bind (fun exr => exr.2.map (fun dr => (exr.1, dr.1, dr.2)))).foldl
          (checkStep R) init := by
  induction l with
  | nil => intro init; rfl
  | cons exr rest ih =>
    intro init
    simp only [List.foldl_cons, List.cons_bind, List.foldl_append, List.foldl_map]
    exact ih _

theorem checkAllUnlocks_eq_foldl (rules : Rules) (st : ADState) :
    checkAllUnlocks rules st
      = (rulePairs rules).foldl (checkStep rules) (st, []) :=
  foldl_nested_eq rules rules (st, [])

theorem checkStep_perf (rules : Rules) (q : ADState × List (String × String))
    (e : String × String × UnlockRule) : (checkStep rules q e).1.perf = q.1.perf := by
  unfold checkStep
  split
  · rfl
  · split
    · rfl
    · split
      · rfl
      · rfl

theorem checkStep_cases (rules : Rules) (q : ADState × List (String × String))
    (e : String × String × UnlockRule) :
    checkStep rules q e = q ∨
    checkStep rules q e
      = ({ q.1 with
            unlocks := storeSet q.1.unlocks (unlockKey e.1 e.2.1) (.jbool true) },
         q.2 ++ [(e.1, e.2.1)]) := by
  unfold checkStep
  split
  · exact Or.inl rfl
  · split
    · exact Or.inl rfl
    · split
      · exact Or.inr rfl
      · exact Or.inl rfl

theorem unlockKey_inj (ex diff ex' diff' : String)
    (h : (ex', diff') ≠ (ex, diff)) :
    (ex' = ex ∧ diff' = diff → False) := by
  intro hc
  exact h (by rw [hc.1, hc.2])

theorem foldl_check_frame (rules : Rules) (ex diff : String)
    (ps : List (String × String × UnlockRule)) :
    ∀ q : ADState × List (String × String),
    (∀ p ∈ ps, unlockKey p.1 p.2.1 ≠ unlockKey ex diff) →
    storeGet ((ps.foldl (checkStep rules) q).1).unlocks (unlockKey ex diff)
        = storeGet q.1.unlocks (unlockKey ex diff) ∧
    ((ex, diff) ∈ (ps.foldl (checkStep rules) q).2 ↔ (ex, diff) ∈ q.2) ∧
    ((ps.foldl (checkStep rules) q).1).perf = q.1.perf := by
  induction ps with
  | nil => intro q _; exact ⟨rfl, Iff.rfl, rfl⟩
  | cons p t ih =>
    intro q hne
    simp only [List.foldl_cons]
    have hrest := ih (checkStep rules q p)
      (fun x hx => hne x (List.mem_cons_of_mem _ hx))
    have hpk : unlockKey p.1 p.2.1 ≠ unlockKey ex diff :=
      hne p (List.mem_cons_self _ _)
    rcases checkStep_cases rules q p with hc | hc
    · rw [hc] at hrest ⊢
      exact hrest
    · rw [hc] at hrest ⊢
      refine ⟨?_, ?_, ?_⟩
      · rw [hrest.1]
        exact storeGet_set_other _ _ _ _ (fun hh => hpk hh.symm)
      · rw [hrest.2.1]
        simp only [List.mem_append, List.mem_singleton]
        constructor
        · rintro (hmem | hpair)
          · exact hmem
          · exact absurd (congrArg (fun r => unlockKey r.1 r.2) hpair.symm) hpk
        · exact Or.inl
      · exact hrest.2.2

theorem isUnlocked_congr (rules : Rules) (st1 st2 : ADState) (ex diff : String)
    (h : storeGet st1.unlocks (unlockKey ex diff)
       = storeGet st2.unlocks (unlockKey ex diff)) :
    isUnlocked rules st1 ex diff = isUnlocked rules st2 ex diff := by
  unfold isUnlocked
  rw [h]

theorem getUnlockRule_mem (rules : Rules) (ex diff : String) (r : UnlockRule)
    (h : getUnlockRule rules ex diff = some r) : (ex, diff, r) ∈ rulePairs rules := by
  unfold getUnlockRule at h
  cases hf : rules.find? (fun p => p.1 == ex) with
  | none =>
    rw [hf] at h
    exact absurd h (by simp)
  | some exr =>
    rw [hf] at h
    obtain ⟨ex1, m⟩ := exr
    have h2 : Option.map Prod.snd (m.find? (fun p => p.1 == diff)) = some r := h
    clear h
    cases hf2 : m.find? (fun p => p.1 == diff) with
    | none =>
      rw [hf2] at h2
      exact absurd h2 (by simp)
    | some dr =>
      rw [hf2] at h2
      simp only [Option.map_some', Option.some.injEq] at h2
      have hex : ex1 = ex := by simpa using List.find?_some hf
      have hdr : dr.1 = diff := by simpa using List.find?_some hf2
      have hm1 : (ex1, m) ∈ rules := List.mem_of_find?_eq_some hf
      have hm2 : dr ∈ m := List.mem_of_find?_eq_some hf2
      unfold rulePairs
      subst hex
      refine List.mem_bind.mpr ⟨(ex1, m), hm1, ?_⟩
      refine List.mem_map.mpr ⟨dr, hm2, ?_⟩
      rw [hdr, h2]

theorem checkStep_at (rules : Rules) (q : ADState × List (String × String))
    (ex diff : String) (r : UnlockRule) (b : String) (hb : r.base = some b) :
    checkStep rules q (ex, diff, r)
      = if isUnlocked rules q.1 ex diff then q
        else if r.minSessions ≤ ((getPerformanceData q.1 ex b).sessions : Int)
               ∧ r.minScore ≤ (getPerformanceData q.1 ex b).bestScore then
          ({ q.1 with
              unlocks := storeSet q.1.unlocks (unlockKey ex diff) (.jbool true) },
           q.2 ++ [(ex, diff)])
        else q := by
  show (if isUnlocked rules q.1 ex diff then q
        else match r.base with
          | none => q
          | some b2 =>
            if r.minSessions ≤ ((getPerformanceData q.1 ex b2).sessions : Int)
               ∧ r.minScore ≤ (getPerformanceData q.1 ex b2).bestScore then
              ({ q.1 with
                  unlocks := storeSet q.1.unlocks (unlockKey ex diff) (.jbool true) },
               q.2 ++ [(ex, diff)])
            else q) = _
  rw [hb]

theorem checkAllUnlocks_core (rules : Rules) (st : ADState)
    (ex diff : String) (r : UnlockRule) (b : String)
    (hnd : ((rulePairs rules).map (fun p => unlockKey p.1 p.2.1)).Nodup)
    (hr : getUnlockRule rules ex diff = some r) (hb : r.base = some b) :
    ((ex, diff) ∈ (checkAllUnlocks rules st).2 ↔
      (isUnlocked rules st ex diff = false ∧
       r.minSessions ≤ ((getPerformanceData st ex b).sessions : Int) ∧
       r.minScore ≤ (getPerformanceData st ex b).bestScore)) ∧
    ((ex, diff) ∈ (checkAllUnlocks rules st).2 →
      storeGet (checkAllUnlocks rules st).1.unlocks (unlockKey ex diff)
        = some (.jbool true)) := by
  have hmem := getUnlockRule_mem rules ex diff r hr
  obtain ⟨l1, l2, hsplit⟩ := List.append_of_mem hmem
  rw [checkAllUnlocks_eq_foldl, hsplit]
  rw [hsplit] at hnd
  simp only [List.map_append, List.map_cons] at hnd
  rw [List.nodup_append] at hnd
  have hK1 : ∀ p ∈ l1, unlockKey p.1 p.2.1 ≠ unlockKey ex diff := by
    intro p hp heq
    exact hnd.2.2 (List.mem_map_of_mem _ hp)
      (by rw [heq]; exact List.mem_cons_self _ _)
  have hK2 : ∀ p ∈ l2, unlockKey p.1 p.2.1 ≠ unlockKey ex diff := by
    intro p hp heq
    exact (List.nodup_cons.mp hnd.2.1).1
      (by rw [← heq]; exact List.mem_map_of_mem _ hp)
  rw [List.foldl_append, List.foldl_cons]
  have hF1 := foldl_check_frame rules ex diff l1 (st, []) hK1
  have hstep := checkStep_at rules (l1.foldl (checkStep rules) (st, []))
    ex diff r b hb
  set q1 := l1.foldl (checkStep rules) (st, []) with hq1def
  have hiso : isUnlocked rules q1.1 ex diff = isUnlocked rules st ex diff :=
    isUnlocked_congr rules q1.1 st ex diff hF1.1
  have hperf : getPerformanceData q1.1 ex b = getPerformanceData st ex b := by
    unfold getPerformanceData
    rw [hF1.2.2]
  by_cases hu : isUnlocked rules st ex diff = true
  · rw [hstep, if_pos (hiso.trans hu)]
    have hF2 := foldl_check_frame rules ex diff l2 q1 hK2
    constructor
    · rw [hF2.2.1, hF1.2.1]
      simp [hu]
    · intro hc
      rw [hF2.2.1, hF1.2.1] at hc
      exact absurd hc (by simp)
  · have hu' : isUnlocked rules st ex diff = false := by
      cases h2 : isUnlocked rules st ex diff
      · rfl
      · exact absurd h2 hu
    rw [hstep, if_neg (by rw [hiso, hu']; decide)]
    by_cases hcond : r.minSessions ≤ ((getPerformanceData st ex b).sessions : Int)
        ∧ r.minScore ≤ (getPerformanceData st ex b).bestScore
    · rw [if_pos (by rw [hperf]; exact hcond)]
      have hF2 := foldl_check_frame rules ex diff l2
        ({ q1.1 with
            unlocks := storeSet q1.1.unlocks (unlockKey ex diff) (.jbool true) },
         q1.2 ++ [(ex, diff)]) hK2
      constructor
      · rw [hF2.2.1]
        simp only [List.mem_append, List.mem_singleton]
        constructor
        · intro _
          exact ⟨hu', hcond.1, hcond.2⟩
        · intro _
          exact Or.inr trivial
      · intro _
        rw [hF2.1]
        exact storeGet_set_self _ _ _
    · rw [if_neg (by rw [hperf]; exact hcond)]
      have hF2 := foldl_check_frame rules ex diff l2 q1 hK2
      constructor
      · rw [hF2.2.1, hF1.2.1]
        constructor
        · intro h
          exact absurd h (by simp)
        · rintro ⟨_, h1, h2⟩
          exact absurd ⟨h1, h2⟩ hcond
      · intro hc
        rw [hF2.2.1, hF1.2.1] at hc
        exact absurd hc (by simp)

/- The concrete unlock scenario of the spec: one exercise, rule
\x7bprerequisite 'easy', minSessions 5, minScore 100\x7d on tier 'medium'. -/

def sampleRule : UnlockRule :=
  { base := some "easy", minSessions := 5, minScore := 100 }

def sampleRules : Rules := [("sample", [("medium", sampleRule)])]

/-- n recorded easy sessions with score 150, starting from an empty store. -/
def sessN : Nat → ADState
  | 0 => { perf := [], unlocks := [] }
  | n + 1 => (recordSession sampleRules (sessN n) "sample" "easy" 150).1

/-- C6: a ruled (exercise, difficulty) pair is returned by
checkAllUnlocks — and afterwards recorded as unlocked — exactly when it
was not already unlocked and the prerequisite tier's performance meets
both thresholds; concretely, with rule \x7bbase 'easy', minSessions 5,
minScore 100\x7d on 'medium', after 4 easy sessions at score 150 'medium'
is still locked and the 4th call returned no unlocks, and the 5th
recorded session returns 'medium' as newly unlocked. -/
theorem checkAllUnlocks_rule_iff (rules : Rules) (st : ADState)
    (ex diff : String) (r : UnlockRule) (b : String)
    (hnd : ((rulePairs rules).map (fun p => unlockKey p.1 p.2.1)).Nodup)
    (hr : getUnlockRule rules ex diff = some r) (hb : r.base = some b) :
    (((ex, diff) ∈ (checkAllUnlocks rules st).2 ↔
       (isUnlocked rules st ex diff = false ∧
        r.minSessions ≤ ((getPerformanceData st ex b).sessions : Int) ∧
        r.minScore ≤ (getPerformanceData st ex b).bestScore)) ∧
     ((ex, diff) ∈ (checkAllUnlocks rules st).2 →
        isUnlocked rules (checkAllUnlocks rules st).1 ex diff = true)) ∧
    (isUnlocked sampleRules (sessN 4) "sample" "medium" = false ∧
     (recordSession sampleRules (sessN 3) "sample" "easy" 150).2 = [] ∧
     (recordSession sampleRules (sessN 4) "sample" "easy" 150).2
       = [("sample", "medium")]) := by
  refine ⟨⟨(checkAllUnlocks_core rules st ex diff r b hnd hr hb).1, ?_⟩,
    by decide, by decide, by decide⟩
  intro hc
  have hstore := (checkAllUnlocks_core rules st ex diff r b hnd hr hb).2 hc
  unfold isUnlocked
  rw [hr, hstore]
  rfl

/-- C6 witness: the iff instantiated at the scenario's registry and the
store reached after five recorded easy sessions at score 150 (5 sessions,
best 150): the pair ("sample","medium") is newly unlocked. -/
theorem checkAllUnlocks_rule_iff_witness :
    (((rulePairs sampleRules).map (fun p => unlockKey p.1 p.2.1)).Nodup ∧
     getUnlockRule sampleRules "sample" "medium" = some sampleRule ∧
     sampleRule.base = some "easy") ∧
    (("sample", "medium") ∈
        (checkAllUnlocks sampleRules
          { perf := [(perfKey "sample" "easy",
              { sessions := 5, bestScore := 150, averageScore := 150,
                scores := [150, 150, 150, 150, 150] })],
            unlocks := [] }).2 ↔
      (isUnlocked sampleRules
          { perf := [(perfKey "sample" "easy",
              { sessions := 5, bestScore := 150, averageScore := 150,
                scores := [150, 150, 150, 150, 150] })],
            unlocks := [] } "sample" "medium" = false ∧
       sampleRule.minSessions ≤
         ((getPerformanceData
            { perf := [(perfKey "sample" "easy",
                { sessions := 5, bestScore := 150, averageScore := 150,
                  scores := [150, 150, 150, 150, 150] })],
              unlocks := [] } "sample" "easy").sessions : Int) ∧
       sampleRule.minScore ≤
         (getPerformanceData
            { perf := [(perfKey "sample" "easy",
                { sessions := 5, bestScore := 150, averageScore := 150,
                  scores := [150, 150, 150, 150, 150] })],
              unlocks := [] } "sample" "easy").bestScore)) :=
  ⟨⟨by decide, by decide, by decide⟩,
   ((checkAllUnlocks_rule_iff sampleRules
      { perf := [(perfKey "sample" "easy",
          { sessions := 5, bestScore := 150, averageScore := 150,
            scores := [150, 150, 150, 150, 150] })],
        unlocks := [] } "sample" "medium" sampleRule "easy"
      (by decide) (by decide) (by decide)).1).1⟩

/- ### checkAndUnlockAchievements — src/js/achievements.js (lines 101-143).
   A condition is a function to `Option Bool`: `none` models a thrown
   exception (caught and logged by the loop), `some b` a returned truth
   value.  The unlocked set is the JSON array under the 'achievements'
   key, in insertion order.  The engine is generic in the context type so
   the registry shape itself is a parameter; the concrete ACHIEVEMENTS
   table of the source is instantiated below. -/

def achStep {α : Type} (ctx : α) (p : List String × List String)
    (a : String × (α → Option Bool)) : List String × List String :=
  if a.1 ∈ p.2 then p
  else
    match a.2 ctx with
    | some true => (p.1 ++ [a.1], p.2 ++ [a.1])
    | some false => p
    | none => p

/-- Returns (newly, updated unlocked set). -/
def checkAndUnlock {α : Type} (reg : List (String × (α → Option Bool)))
    (unlocked : List String) (ctx : α) : List String × List String :=
  reg.foldl (achStep ctx) ([], unlocked)

structure AchEntry where
  perfects : Option Int
  streak : Option Int
  difficulty : Option String
  score : Option Int
deriving DecidableEq, Repr

structure AchStats where
  totalSessions : Int
  streak : Int
  newPersonalBest : Bool
  triedCount : Int
  totalExercises : Int
deriving DecidableEq, Repr

structure AchCtx where
  entry : AchEntry
  stats : AchStats
deriving DecidableEq, Repr

/-- The ACHIEVEMENTS table (all eight conditions are total, so none of
them can throw; `entry?.x ?? 0` is an Option with default). -/
def ACHIEVEMENTS : List (String × (AchCtx → Option Bool)) :=
  [("firstSteps", fun c => some (decide (1 ≤ c.stats.totalSessions))),
   ("consistent", fun c => some (decide (7 ≤ c.stats.streak))),
   ("dedicated", fun c => some (decide (50 ≤ c.stats.totalSessions))),
   ("personalBest", fun c => some c.stats.newPersonalBest),
   ("explorer", fun c => some (decide
      (c.stats.totalExercises ≤ c.stats.triedCount
       ∧ 0 < c.stats.totalExercises))),
   ("perfect_5", fun c => some (decide (5 ≤ c.entry.perfects.getD 0))),
   ("streak_10", fun c => some (decide (10 ≤ c.entry.streak.getD 0))),
   ("hard_clear", fun c => some (decide
      (c.entry.difficulty = some "hard" ∧ 1000 ≤ c.entry.score.getD 0)))]

def emptyEntry : AchEntry :=
  { perfects := none, streak := none, difficulty := none, score := none }

theorem achFold_mono {α : Type} (ctx : α)
    (l : List (String × (α → Option Bool))) :
    ∀ (p : List String × List String) (x : String), x ∈ p.2 →
      x ∈ (l.foldl (achStep ctx) p).2 := by
  induction l with
  | nil => intro p x hx; exact hx
  | cons a t ih =>
    intro p x hx
    simp only [List.foldl_cons]
    refine ih _ x ?_
    unfold achStep
    split
    · exact hx
    · split
      · simp [hx]
      · exact hx
      · exact hx

theorem achFold_true_mem {α : Type} (ctx : α)
    (l : List (String × (α → Option Bool))) :
    ∀ (p : List String × List String) (a : String × (α → Option Bool)),
      a ∈ l → a.2 ctx = some true →
      a.1 ∈ (l.foldl (achStep ctx) p).2 := by
  induction l with
  | nil => intro p a ha _; exact absurd ha (by simp)
  | cons b t ih =>
    intro p a ha htrue
    simp only [List.foldl_cons]
    rcases List.mem_cons.mp ha with heq | htail
    · subst heq
      by_cases hmem : a.1 ∈ p.2
      · refine achFold_mono ctx t _ a.1 ?_
        unfold achStep
        rw [if_pos hmem]
        exact hmem
      · refine achFold_mono ctx t _ a.1 ?_
        unfold achStep
        rw [if_neg hmem, htrue]
        simp
    · exact ih _ a htail htrue

theorem achFold_stable {α : Type} (ctx : α)
    (l : List (String × (α → Option Bool))) :
    ∀ p : List String × List String,
      (∀ a ∈ l, a.2 ctx = some true → a.1 ∈ p.2) →
      l.foldl (achStep ctx) p = p := by
  induction l with
  | nil => intro p _; rfl
  | cons a t ih =>
    intro p hp
    simp only [List.foldl_cons]
    have hstep : achStep ctx p a = p := by
      unfold achStep
      by_cases hmem : a.1 ∈ p.2
      · rw [if_pos hmem]
      · rw [if_neg hmem]
        cases hc : a.2 ctx with
        | none => rfl
        | some b =>
          cases b with
          | false => rfl
          | true => exact absurd (hp a (List.mem_cons_self _ _) hc) hmem
    rw [hstep]
    exact ih p (fun x hx => hp x (List.mem_cons_of_mem _ hx))

theorem achStep_none {α : Type} (ctx : α) (bad : String × (α → Option Bool))
    (h : bad.2 ctx = none) (p : List String × List String) :
    achStep ctx p bad = p := by
  unfold achStep
  rw [h]
  split
  · rfl
  · rfl

/-- C7: (i) a second pass with unchanged entry/stats context returns an
empty newly-unlocked list; (ii) an achievement whose condition throws is
caught and contributes nothing — the pass behaves exactly as if that
entry were absent, so every remaining achievement is still evaluated and
can unlock; (iii) both instantiated on the source's ACHIEVEMENTS table:
with 50 sessions, a 7-day streak, a personal best and all exercises
tried, the first call unlocks five achievements, the second call returns
[], and splicing a throwing achievement into the table leaves the
outcome unchanged. -/
theorem checkAndUnlock_idempotent_isolated :
    (∀ (α : Type) (reg : List (String × (α → Option Bool)))
       (unlocked : List String) (ctx : α),
       (checkAndUnlock reg (checkAndUnlock reg unlocked ctx).2 ctx).1 = []) ∧
    (∀ (α : Type) (reg1 reg2 : List (String × (α → Option Bool)))
       (bad : String × (α → Option Bool)) (unlocked : List String) (ctx : α),
       bad.2 ctx = none →
       checkAndUnlock (reg1 ++ bad :: reg2) unlocked ctx
         = checkAndUnlock (reg1 ++ reg2) unlocked ctx) ∧
    ((checkAndUnlock ACHIEVEMENTS []
        ⟨emptyEntry, ⟨50, 7, true, 1, 1⟩⟩).1
       = ["firstSteps", "consistent", "dedicated", "personalBest",
          "explorer"] ∧
     (checkAndUnlock ACHIEVEMENTS
        (checkAndUnlock ACHIEVEMENTS []
          ⟨emptyEntry, ⟨50, 7, true, 1, 1⟩⟩).2
        ⟨emptyEntry, ⟨50, 7, true, 1, 1⟩⟩).1 = [] ∧
     checkAndUnlock
        (ACHIEVEMENTS.take 3 ++ ("boom", fun _ => none) :: ACHIEVEMENTS.drop 3)
        [] ⟨emptyEntry, ⟨50, 7, true, 1, 1⟩⟩
       = checkAndUnlock ACHIEVEMENTS []
           ⟨emptyEntry, ⟨50, 7, true, 1, 1⟩⟩) := by
  refine ⟨?_, ?_, by decide, by decide, by decide⟩
  · intro α reg unlocked ctx
    unfold checkAndUnlock
    rw [achFold_stable ctx reg
      ([], (List.foldl (achStep ctx) ([], unlocked) reg).2)
      (fun a ha htrue => achFold_true_mem ctx reg ([], unlocked) a ha htrue)]
  · intro α reg1 reg2 bad unlocked ctx h
    unfold checkAndUnlock
    rw [List.foldl_append, List.foldl_cons, achStep_none ctx bad h,
      ← List.foldl_append]

/-- C7 witness: isolation applied concretely — a throwing achievement
"boom" spliced after the first three table entries changes nothing. -/
theorem checkAndUnlock_idempotent_isolated_witness :
    ((("boom", fun _ => none) : String × (AchCtx → Option Bool)).2
        ⟨emptyEntry, ⟨50, 7, true, 1, 1⟩⟩ = none ∧
     checkAndUnlock
        (ACHIEVEMENTS.take 3 ++ ("boom", fun _ => none) :: ACHIEVEMENTS.drop 3)
        [] ⟨emptyEntry, ⟨50, 7, true, 1, 1⟩⟩
       = checkAndUnlock (ACHIEVEMENTS.take 3 ++ ACHIEVEMENTS.drop 3) []
           ⟨emptyEntry, ⟨50, 7, true, 1, 1⟩⟩) :=
  ⟨rfl,
   checkAndUnlock_idempotent_isolated.2.1 AchCtx (ACHIEVEMENTS.take 3)
     (ACHIEVEMENTS.drop 3) ("boom", fun _ => none) []
     ⟨emptyEntry, ⟨50, 7, true, 1, 1⟩⟩ rfl⟩
